import Mathlib

/-!
Verification development for the go-qrcode repository (QR Code encoder,
content splitter and multi-symbol grid helpers).

Byte strings of the Go code are modelled as `List Nat` (each entry a byte
value 0..255).  The splitter and grid-layout functions are translated
directly from `split.go` and the multi-QR helper file.  The encoder core
(capacity tables, Galois field, bitstream packer, Reed-Solomon, matrix
builder, masking) is not part of the provided sources, so those
definitions are modelled from the specification, as indicated by their
doc comments.
-/

set_option maxRecDepth 10000

namespace GoQrcode

/-- Modelled from the spec: the source's `RecoveryLevel` enum
{Low, Medium, Quartile, Highest} (§3 data model). -/
inductive RecoveryLevel where
  | Low
  | Medium
  | Quartile
  | Highest
deriving DecidableEq

/-- Modelled from the spec: the source's `Mode` enum
{Numeric, Alphanumeric, Byte} (§3 data model). -/
inductive Mode where
  | numeric
  | alphanumeric
  | byte
deriving DecidableEq

/-- Modelled from the spec: per-version, per-level data-codeword counts of
the capacity tables (§4.3), the standard ISO/IEC 18004 values, given as
(L, M, Q, H) per version 1..40.  The version-40 row is corroborated by the
repository test `TestMaxByteCapacity` ("(10208 - 20) / 8 = 1273", i.e.
8·1276 = 10208 data bits at version 40 level Highest) and by
`TestMaxEncodablePrefix` (3057 numeric / 1852 alphanumeric / 1273 byte
characters at version 40 level Highest). -/
def dataCodewordsTable : List (Nat × Nat × Nat × Nat) :=
  [(19, 16, 13, 9),
   (34, 28, 22, 16),
   (55, 44, 34, 26),
   (80, 64, 48, 36),
   (108, 86, 62, 46),
   (136, 108, 76, 60),
   (156, 124, 88, 66),
   (194, 154, 110, 86),
   (232, 182, 132, 100),
   (274, 216, 154, 122),
   (324, 254, 180, 140),
   (370, 290, 206, 158),
   (428, 334, 244, 180),
   (461, 365, 261, 197),
   (523, 415, 295, 223),
   (589, 453, 325, 253),
   (647, 507, 367, 283),
   (721, 563, 397, 313),
   (795, 627, 445, 341),
   (861, 669, 485, 385),
   (932, 714, 512, 406),
   (1006, 782, 568, 442),
   (1094, 860, 614, 464),
   (1174, 914, 664, 514),
   (1276, 1000, 718, 538),
   (1370, 1062, 754, 596),
   (1468, 1128, 808, 628),
   (1531, 1193, 871, 661),
   (1631, 1267, 911, 701),
   (1735, 1373, 985, 745),
   (1843, 1455, 1033, 793),
   (1955, 1541, 1115, 845),
   (2071, 1631, 1171, 901),
   (2191, 1725, 1231, 961),
   (2306, 1812, 1286, 986),
   (2434, 1914, 1354, 1054),
   (2566, 1992, 1426, 1096),
   (2702, 2102, 1502, 1142),
   (2812, 2216, 1582, 1222),
   (2956, 2334, 1666, 1276)]

/-- Modelled from the spec: total codeword count per version (§4.3),
keyed by version alone (the data/EC split varies with the level but the
total does not). -/
def totalCodewordsTable : List Nat :=
  [26, 44, 70, 100, 134, 172, 196, 242, 292, 346,
   404, 466, 532, 581, 655, 733, 815, 901, 991, 1085,
   1156, 1258, 1364, 1474, 1588, 1706, 1828, 1921, 2051, 2185,
   2323, 2465, 2611, 2761, 2876, 3034, 3196, 3362, 3532, 3706]

/-- Modelled from the spec: number of data codewords available at a given
(version, recovery level); 0 for a version outside 1..40. -/
def numDataCodewords (version : Nat) (level : RecoveryLevel) : Nat :=
  let row := dataCodewordsTable.getD (version - 1) (0, 0, 0, 0)
  if version = 0 ∨ 40 < version then 0
  else
    match level with
    | .Low => row.1
    | .Medium => row.2.1
    | .Quartile => row.2.2.1
    | .Highest => row.2.2.2

/-- Modelled from the spec: total codewords at a given version (data plus
error-correction); 0 for a version outside 1..40. -/
def totalCodewords (version : Nat) : Nat :=
  if version = 0 ∨ 40 < version then 0
  else totalCodewordsTable.getD (version - 1) 0

/-- Modelled from the spec: `max_byte_capacity(level)`, the source's
`MaxByteCapacity` (absent from the provided sources; only its callers in
`split.go` and the test `TestMaxByteCapacity` are present).  Per the spec
(§6) it is a pure function over the capacity tables at version 40 in Byte
mode, and per the test comment it computes (data bits − 20-bit Byte-mode
header) / 8, e.g. (10208 − 20) / 8 = 1273 at level Highest. -/
def MaxByteCapacity (level : RecoveryLevel) : Nat :=
  (8 * numDataCodewords 40 level - 20) / 8

/-- The chunking loop of `SplitContent` (src/split.go), with an explicit
iteration bound so the recursion is structural: while data remains, take
`cap` bytes (or all remaining bytes if fewer) as the next chunk.  Each
iteration consumes at least one byte when `cap > 0` (which the caller's
guard ensures), so `data.length` iterations always suffice. -/
def chunkLoopF (cap : Nat) : Nat → List Nat → List (List Nat)
  | _, [] => []
  | 0, _ :: _ => []
  | fuel + 1, d :: ds =>
    ((d :: ds).take cap) :: chunkLoopF cap fuel ((d :: ds).drop cap)

/-- The chunking loop of `SplitContent`, started with sufficient fuel. -/
def chunkLoop (cap : Nat) (data : List Nat) : List (List Nat) :=
  chunkLoopF cap data.length data

/-- The body of `SplitContent` for an arbitrary effective capacity: the
two guards of src/split.go (`cap <= 0` before and after subtracting the
50-byte safety margin; on `Nat` the truncated subtraction makes both map
to `= 0` tests covering exactly the Go `<= 0` cases) followed by the
byte-boundary chunk loop. -/
def splitContentAux (cap : Nat) (content : List Nat) : List (List Nat) :=
  if cap = 0 then []
  else if cap - 50 = 0 then []
  else chunkLoop (cap - 50) content

/-- `SplitContent` from src/split.go: split content into chunks by byte
boundary, each fitting in a single QR code at the given recovery level. -/
def SplitContent (content : List Nat) (level : RecoveryLevel) : List (List Nat) :=
  splitContentAux (MaxByteCapacity level) content

/-- `utf8.RuneStart` from the Go standard library, used by
`SplitContentUTF8`: a byte starts a rune iff it is not a UTF-8
continuation byte, i.e. `b & 0xC0 != 0x80`. -/
def runeStart (b : Nat) : Bool :=
  b &&& 0xC0 != 0x80

/-- The backup loop of `SplitContentUTF8` (src/split.go): starting from a
candidate cut position, step back while the position is positive, strictly
inside the content, and the byte there is not a rune start
(`for end > 0 && end < len(content) && !utf8.RuneStart(content[end])`). -/
def backupToRuneStart (content : List Nat) : Nat → Nat
  | 0 => 0
  | e + 1 =>
    if e + 1 < content.length ∧ runeStart (content.getD (e + 1) 0) = false then
      backupToRuneStart content e
    else e + 1

/-- The chunking loop of `SplitContentUTF8` (src/split.go), with an
explicit iteration bound so the recursion is structural: take up to `cap`
bytes, back the cut up to a rune boundary, stop (dropping the rest) if
that reaches position 0, else emit the chunk and continue on the
remainder.  Each emitted chunk is nonempty, so `content.length`
iterations always suffice. -/
def chunkLoopUTF8F (cap : Nat) : Nat → List Nat → List (List Nat)
  | _, [] => []
  | 0, _ :: _ => []
  | fuel + 1, d :: ds =>
    if backupToRuneStart (d :: ds) (min cap (d :: ds).length) = 0 then []
    else ((d :: ds).take (backupToRuneStart (d :: ds) (min cap (d :: ds).length))) ::
      chunkLoopUTF8F cap fuel
        ((d :: ds).drop (backupToRuneStart (d :: ds) (min cap (d :: ds).length)))

/-- The chunking loop of `SplitContentUTF8`, started with sufficient
fuel. -/
def chunkLoopUTF8 (cap : Nat) (content : List Nat) : List (List Nat) :=
  chunkLoopUTF8F cap content.length content

/-- The body of `SplitContentUTF8` for an arbitrary capacity, with the
same two guards as `SplitContent`. -/
def splitContentUTF8Aux (cap : Nat) (content : List Nat) : List (List Nat) :=
  if cap = 0 then []
  else if cap - 50 = 0 then []
  else chunkLoopUTF8 (cap - 50) content

/-- `SplitContentUTF8` from src/split.go: split content into chunks at
rune boundaries, each fitting in a single QR code at the given recovery
level. -/
def SplitContentUTF8 (content : List Nat) (level : RecoveryLevel) : List (List Nat) :=
  splitContentUTF8Aux (MaxByteCapacity level) content

/-- `int(math.Ceil(math.Sqrt(float64(n))))` from `GridImage`: the ceiling
of the square root.  `math.Sqrt` is correctly rounded, so for every slice
length representable in the program this equals the integer ceiling of the
exact square root, which is how it is modelled here. -/
def intCeilSqrt (n : Nat) : Nat :=
  if Nat.sqrt n * Nat.sqrt n = n then Nat.sqrt n else Nat.sqrt n + 1

/-- The result geometry of `GridImage` (multi-QR helper file): the chosen
column and row counts, the pixel bounds of the produced image, and for
each code index the pixel origin of the cell it is drawn into
(`draw.Draw(dst, image.Rect(c*size, r*size, ...), ...)`). -/
structure GridLayout where
  cols : Nat
  rows : Nat
  width : Nat
  height : Nat
  cells : List (Nat × Nat × Nat)
deriving DecidableEq

/-- `GridImage` from the multi-QR helper file, modelling the layout of the
produced image: for `n = 0` a 0x0 image; otherwise `cols` columns
(auto-chosen as ⌈√n⌉ when the argument is ≤ 0), `rows = ⌈n / cols⌉` rows,
a `(cols*size) x (rows*size)` canvas, and code `i` drawn at pixel origin
`((i % cols) * size, (i / cols) * size)`. -/
def GridImage (n : Nat) (size : Nat) (cols : Int) : GridLayout :=
  if n = 0 then ⟨0, 0, 0, 0, []⟩
  else
    let c : Nat := if cols ≤ 0 then intCeilSqrt n else cols.toNat
    let r : Nat := (n + c - 1) / c
    ⟨c, r, c * size, r * size,
      (List.range n).map (fun i => (i, (i % c) * size, (i / c) * size))⟩

/-- Modelled from the spec: one multiply-by-the-generator-element-2 step
of the GF(256) antilog table construction (§4.1), reducing by the
primitive polynomial x⁸+x⁴+x³+x²+1 (0x11D = 285) when the degree-8 bit
appears. -/
def gfStep (c : Nat) : Nat :=
  let d := 2 * c
  if 256 ≤ d then d ^^^ 285 else d

/-- Modelled from the spec: the first `k` entries of the antilog table,
starting at `c = 2^start`. -/
def gfExpFrom (c : Nat) : Nat → List Nat
  | 0 => []
  | k + 1 => c :: gfExpFrom (gfStep c) k

/-- Modelled from the spec: the precomputed antilog table of size 256
(§4.1), entry i holding 2^i in GF(256); entry 255 wraps back to 1. -/
def antilogTable : List Nat :=
  gfExpFrom 1 256

/-- Modelled from the spec: the precomputed log table lookup (§4.1):
`logOf a` is the index of `a` in the first 255 antilog entries (the
discrete logarithm base 2 of a nonzero field element). -/
def logOf (a : Nat) : Nat :=
  (antilogTable.take 255).indexOf a

/-- Modelled from the spec: `multiply(a, b)` of the Galois field engine
(§4.1): 0 if either operand is 0, else `antilog[(log[a]+log[b]) mod 255]`.
Pure and total. -/
def multiply (a b : Nat) : Nat :=
  if a = 0 ∨ b = 0 then 0
  else antilogTable.getD ((logOf a + logOf b) % 255) 0

/-- Modelled from the spec: ASCII-digit test of the mode classifier
(§4.4), on byte values. -/
def isDigitByte (b : Nat) : Bool :=
  48 ≤ b && b ≤ 57

/-- Modelled from the spec: membership in the 45-symbol alphanumeric set
{0-9, A-Z, space, $, %, *, +, -, ., /, :} (§3, §4.4), on byte values. -/
def isAlphanumericByte (b : Nat) : Bool :=
  isDigitByte b || (65 ≤ b && b ≤ 90) ||
    (b == 32 || b == 36 || b == 37 || b == 42 || b == 43 ||
     b == 45 || b == 46 || b == 47 || b == 58)

/-- Modelled from the spec: the mode classifier (§4.4): Numeric if all
characters are ASCII digits, else Alphanumeric if all characters are in
the 45-symbol set, else Byte over the UTF-8 byte sequence. -/
def classify (content : List Nat) : Mode :=
  if content.all isDigitByte then .numeric
  else if content.all isAlphanumericByte then .alphanumeric
  else .byte

/-- Modelled from the spec: character-count-indicator bit width per mode
and version range (§4.3): ranges 1-9, 10-26, 27-40 with increasing
width. -/
def charCountBits (mode : Mode) (version : Nat) : Nat :=
  match mode with
  | .numeric => if version ≤ 9 then 10 else if version ≤ 26 then 12 else 14
  | .alphanumeric => if version ≤ 9 then 9 else if version ≤ 26 then 11 else 13
  | .byte => if version ≤ 9 then 8 else 16

/-- Modelled from the spec: the `w`-bit big-endian encoding of a value
used by the bitstream packer (§4.4). -/
def toBits (w : Nat) (value : Nat) : List Bool :=
  match w with
  | 0 => []
  | w + 1 => (value / 2 ^ w % 2 = 1) :: toBits w value

/-- Modelled from the spec: the numeric value of an ASCII digit byte. -/
def digitVal (b : Nat) : Nat :=
  b - 48

/-- Modelled from the spec: Numeric-mode data bits (§4.4): runs of 3
digits → 10 bits, a trailing 2-digit remainder → 7 bits, a trailing
single digit → 4 bits. -/
def numericBits : List Nat → List Bool
  | d1 :: d2 :: d3 :: rest =>
    toBits 10 (100 * digitVal d1 + 10 * digitVal d2 + digitVal d3) ++ numericBits rest
  | [d1, d2] => toBits 7 (10 * digitVal d1 + digitVal d2)
  | [d1] => toBits 4 (digitVal d1)
  | [] => []

/-- Modelled from the spec: a character's index in the 45-symbol
alphanumeric table (§4.4). -/
def alphanumericIndex (b : Nat) : Nat :=
  if isDigitByte b then b - 48
  else if 65 ≤ b && b ≤ 90 then b - 55
  else if b = 32 then 36
  else if b = 36 then 37
  else if b = 37 then 38
  else if b = 42 then 39
  else if b = 43 then 40
  else if b = 45 then 41
  else if b = 46 then 42
  else if b = 47 then 43
  else 44

/-- Modelled from the spec: Alphanumeric-mode data bits (§4.4): pairs →
`45·a + b` in 11 bits, a trailing single character → 6 bits. -/
def alphanumericBits : List Nat → List Bool
  | a :: b :: rest =>
    toBits 11 (45 * alphanumericIndex a + alphanumericIndex b) ++ alphanumericBits rest
  | [a] => toBits 6 (alphanumericIndex a)
  | [] => []

/-- Modelled from the spec: Byte-mode data bits (§4.4): each byte emitted
as 8 bits verbatim. -/
def byteBits (content : List Nat) : List Bool :=
  content.flatMap (toBits 8)

/-- Modelled from the spec: the data bits of the packed stream for a given
mode (§4.4). -/
def dataBits (mode : Mode) (content : List Nat) : List Bool :=
  match mode with
  | .numeric => numericBits content
  | .alphanumeric => alphanumericBits content
  | .byte => byteBits content

/-- Modelled from the spec: the 4-bit mode indicator codes (§4.4),
Numeric 0001, Alphanumeric 0010, Byte 0100. -/
def modeIndicator (mode : Mode) : Nat :=
  match mode with
  | .numeric => 1
  | .alphanumeric => 2
  | .byte => 4

/-- Modelled from the spec: the packed header-plus-data bit stream (§4.4),
before terminator and padding: 4-bit mode indicator, character-count
indicator (character count for Numeric/Alphanumeric, byte count for
Byte), then the data bits. -/
def packedBits (content : List Nat) (version : Nat) : List Bool :=
  let m := classify content
  toBits 4 (modeIndicator m) ++ toBits (charCountBits m version) content.length ++
    dataBits m content

/-- Modelled from the spec: whether the packed bitstream fits the data
capacity of a version at a level (§4.4): mode indicator + count indicator
+ data bits against capacity-table codewords × 8. -/
def fitsVersion (content : List Nat) (level : RecoveryLevel) (version : Nat) : Bool :=
  (packedBits content version).length ≤ 8 * numDataCodewords version level

/-- Modelled from the spec: version selection (§3, §4.4): the smallest
version 1..40 whose data capacity fits the packed bitstream, none if even
version 40 is insufficient. -/
def selectVersion (content : List Nat) (level : RecoveryLevel) : Option Nat :=
  (List.range' 1 40).find? (fitsVersion content level)

/-- Modelled from the spec: the encode error taxonomy (§7). -/
inductive EncodeError where
  | contentTooLong
  | invalidVersion
  | matrixOverflow
  | matrixUnderflow
deriving DecidableEq

/-- Modelled from the spec: the grid dimension `17 + 4·version` (§3). -/
def symbolSize (version : Nat) : Nat :=
  17 + 4 * version

/-- Modelled from the spec: alignment-pattern center coordinates per
version (§4.3), empty for version 1, the standard ISO/IEC 18004 values. -/
def alignmentCenters (version : Nat) : List Nat :=
  [[], [6, 18], [6, 22], [6, 26], [6, 30], [6, 34],
   [6, 22, 38], [6, 24, 42], [6, 26, 46], [6, 28, 50], [6, 30, 54],
   [6, 32, 58], [6, 34, 62], [6, 26, 46, 66], [6, 26, 48, 70],
   [6, 26, 50, 74], [6, 30, 54, 78], [6, 30, 56, 82], [6, 30, 58, 86],
   [6, 34, 62, 90], [6, 28, 50, 72, 94], [6, 26, 50, 74, 98],
   [6, 30, 54, 78, 102], [6, 28, 54, 80, 106], [6, 32, 58, 84, 110],
   [6, 30, 58, 86, 114], [6, 34, 62, 90, 118], [6, 26, 50, 74, 98, 122],
   [6, 30, 54, 78, 102, 126], [6, 26, 52, 78, 104, 130],
   [6, 30, 56, 82, 108, 134], [6, 34, 60, 86, 112, 138],
   [6, 30, 58, 86, 114, 142], [6, 34, 62, 90, 118, 146],
   [6, 30, 54, 78, 102, 126, 150], [6, 24, 50, 76, 102, 128, 154],
   [6, 28, 54, 80, 106, 132, 158], [6, 32, 58, 84, 110, 136, 162],
   [6, 26, 54, 82, 110, 138, 166], [6, 30, 58, 86, 114, 142, 170]].getD
    (version - 1) []

/-- Modelled from the spec: whether an alignment pattern centered at
(a, b) would overlap one of the three 7x7 finder patterns and is
therefore skipped (§4.6, step 3).  The pattern spans two modules around
its center; the finders occupy rows/cols 0..6 at the three non-bottom-right
corners. -/
def alignmentOverlapsFinder (n a b : Nat) : Bool :=
  (a ≤ 8 && b ≤ 8) || (a ≤ 8 && n ≤ b + 9) || (n ≤ a + 9 && b ≤ 8)

/-- Modelled from the spec: whether cell (r, c) lies inside a placed
alignment pattern (§4.6, step 3): within two modules of a center pair
from the version's alignment table whose pattern does not overlap a
finder.  A cell is near at most one center per axis, so the nearest
center on each axis decides. -/
def inAlignment (version r c : Nat) : Bool :=
  let n := symbolSize version
  let ca := alignmentCenters version
  match ca.find? (fun a => a - 2 ≤ r && r ≤ a + 2),
        ca.find? (fun b => b - 2 ≤ c && c ≤ b + 2) with
  | some a, some b => !alignmentOverlapsFinder n a b
  | _, _ => false

/-- Modelled from the spec: whether cell (r, c) of the version's grid is a
function-pattern or reserved-metadata cell (§4.6 steps 1-4): the three
8x8 finder-plus-separator corner blocks, the row-6/column-6 timing
patterns, alignment patterns, the two 15-cell format-information strips
flanking the finders, the fixed dark module, and (version ≥ 7) the two
3x6 version-information blocks. -/
def isReserved (version r c : Nat) : Bool :=
  let n := symbolSize version
  (r ≤ 7 && c ≤ 7) ||                        -- top-left finder + separator
  (r ≤ 7 && n ≤ c + 8) ||                    -- top-right finder + separator
  (n ≤ r + 8 && c ≤ 7) ||                    -- bottom-left finder + separator
  (r == 6 || c == 6) ||                      -- timing patterns
  (r == 8 && (c ≤ 8 || n ≤ c + 8)) ||        -- format strips, horizontal
  (c == 8 && (r ≤ 8 || n ≤ r + 7)) ||        -- format strips, vertical
  (c == 8 && r + 8 == n) ||                  -- fixed dark module
  (7 ≤ version &&
    ((r ≤ 5 && n ≤ c + 11 && c + 9 ≤ n) ||   -- version info, top-right
     (c ≤ 5 && n ≤ r + 11 && r + 9 ≤ n))) || -- version info, bottom-left
  inAlignment version r c

/-- Modelled from the spec: one two-column zigzag pass of the data-fill
order (§4.6, step 5): the rows of the grid visited upward or downward,
each contributing the right then the left column of the pair. -/
def zigzagPassCells (n x : Nat) (upward : Bool) : List (Nat × Nat) :=
  (List.range n).flatMap (fun i =>
    let y := if upward then n - 1 - i else i
    [(y, x), (y, x - 1)])

/-- Modelled from the spec: the right-column x coordinates of the
two-column zigzag passes, right to left, skipping the vertical timing
column 6 (§4.6, step 5). -/
def zigzagColumns (n : Nat) : List Nat :=
  (List.range ((n - 1) / 2)).map (fun k =>
    let x := n - 1 - 2 * k
    if x ≤ 6 then x - 1 else x)

/-- Modelled from the spec: the standard zigzag traversal of the
unreserved data cells (§4.6, step 5): column pairs from the bottom-right
corner, alternating upward and downward, skipping reserved cells. -/
def zigzagCells (version : Nat) : List (Nat × Nat) :=
  let n := symbolSize version
  ((zigzagColumns n).enum.flatMap (fun p =>
    zigzagPassCells n p.2 (p.1 % 2 == 0))).filter
    (fun q => !isReserved version q.1 q.2)

/-- Modelled from the spec: the number of unreserved data cells of a
version's matrix (§4.6), counted cell by cell with the reservation
predicate, row by row over the whole grid. -/
def dataCellCountCells (version : Nat) : Nat :=
  let n := symbolSize version
  ((List.range n).map (fun r =>
    ((List.range n).filter (fun c => !isReserved version r c)).length)).sum

/-- A contiguous block of `w` set bits. -/
def onesMask (w : Nat) : Nat := 2 ^ w - 1

/-- The number of set bits of `x` (for `x < 2^w` with fewer than 65535
set bits), computed by the standard parallel bit-counting folds: each
step sums adjacent fields, doubling the field width from 1 to 16 bits;
the final base-65536 digit sum is taken modulo 65535.  The alternating
field masks are the base-2^ww digit expansions 0101…, 00110011…, etc.,
obtained as quotients of the all-ones mask. -/
def popcount (w x : Nat) : Nat :=
  let ww := 16 * ((w + 15) / 16)
  let m1 := onesMask ww / 3
  let m2 := onesMask ww / 5
  let m4 := onesMask ww / 17
  let m8 := onesMask ww / 257
  let x1 := (x &&& m1) + ((x >>> 1) &&& m1)
  let x2 := (x1 &&& m2) + ((x1 >>> 2) &&& m2)
  let x4 := (x2 &&& m4) + ((x2 >>> 4) &&& m4)
  let x8 := (x4 &&& m8) + ((x4 >>> 8) &&& m8)
  x8 % 65535

/-- The bit pattern with a single set bit at position `r·n` for each of
`rows` consecutive rows of an n-wide grid: the base-2^n repunit. -/
def gridColumnOnes (n rows : Nat) : Nat :=
  onesMask (rows * n) / onesMask n

/-- The bitmask of the grid rectangle spanning rows r1..r2 and columns
c1..c2 (inclusive) of an n-wide grid whose cell (r, c) is bit `r·n + c`:
one column segment replicated down the selected rows. -/
def rectMask (n r1 r2 c1 c2 : Nat) : Nat :=
  ((onesMask (c2 + 1 - c1)) <<< c1) * ((gridColumnOnes n (r2 + 1 - r1)) <<< (r1 * n))

/-- Modelled from the spec: the reserved region of the matrix (§4.6 steps
1-4) as one grid bitmask, the union of the stamped rectangles: the three
8x8 finder-plus-separator corner blocks, the row-6 and column-6 timing
lines, the format strips flanking the finders with the fixed dark module,
the two 3x6 version-information blocks (version ≥ 7), and one 5x5 square
per non-finder-overlapping alignment center pair.  This is the same
region as the cell predicate `isReserved`, in mask form (cross-checked
against the predicate count at several versions below). -/
def reservedMask (version : Nat) : Nat :=
  let n := symbolSize version
  let finders := rectMask n 0 7 0 7 ||| rectMask n 0 7 (n - 8) (n - 1) |||
    rectMask n (n - 8) (n - 1) 0 7
  let timing := rectMask n 6 6 0 (n - 1) ||| rectMask n 0 (n - 1) 6 6
  let format := rectMask n 8 8 0 8 ||| rectMask n 0 8 8 8 |||
    rectMask n 8 8 (n - 8) (n - 1) ||| rectMask n (n - 7) (n - 1) 8 8 |||
    rectMask n (n - 8) (n - 8) 8 8
  let versionBlocks :=
    if 7 ≤ version then
      rectMask n 0 5 (n - 11) (n - 9) ||| rectMask n (n - 11) (n - 9) 0 5
    else 0
  let ca := alignmentCenters version
  let align := (ca.flatMap (fun a => ca.map (fun b => (a, b)))).foldl
    (fun acc p =>
      if alignmentOverlapsFinder n p.1 p.2 then acc
      else acc ||| rectMask n (p.1 - 2) (p.1 + 2) (p.2 - 2) (p.2 + 2)) 0
  finders ||| timing ||| format ||| versionBlocks ||| align

/-- Modelled from the spec: the number of unreserved data cells of a
version's matrix (§4.6): the grid size minus the size of the reserved
region. -/
def dataCellCount (version : Nat) : Nat :=
  let n := symbolSize version
  n * n - popcount (n * n) (reservedMask version)

/-- Modelled from the spec: the number of remainder bits per version —
the excess of the data-cell count over 8·(total codewords), absent from
the spec's §4.4/§4.6 narrative but forced by the geometry; the standard
values 0/3/4/7 depending on the version range. -/
def remainderBits (version : Nat) : Nat :=
  if version = 1 then 0
  else if version ≤ 6 then 7
  else if version ≤ 13 then 0
  else if version ≤ 20 then 3
  else if version ≤ 27 then 4
  else if version ≤ 34 then 3
  else 0

/-- Modelled from the spec: the packed bit stream after the terminator
and zero padding (§4.4): a terminator of up to 4 zero bits (fewer if less
capacity remains), then zero bits to the next byte boundary. -/
def terminatedBits (content : List Nat) (level : RecoveryLevel) (version : Nat) :
    List Bool :=
  let bits := packedBits content version
  let cap := 8 * numDataCodewords version level
  let withTerm := bits ++ List.replicate (min 4 (cap - bits.length)) false
  withTerm ++ List.replicate ((8 - withTerm.length % 8) % 8) false

/-- Modelled from the spec: grouping of a byte-aligned bit stream into
8-bit codewords (§4.4); the stream handed to it is always zero-padded to
a byte boundary, so the catch-all branch is unreachable. -/
def bitsToBytes : List Bool → List Nat
  | b7 :: b6 :: b5 :: b4 :: b3 :: b2 :: b1 :: b0 :: rest =>
    ((if b7 then 128 else 0) + (if b6 then 64 else 0) + (if b5 then 32 else 0) +
     (if b4 then 16 else 0) + (if b3 then 8 else 0) + (if b2 then 4 else 0) +
     (if b1 then 2 else 0) + (if b0 then 1 else 0)) :: bitsToBytes rest
  | _ => []

/-- Modelled from the spec: the repeating pad-byte pattern 0xEC, 0x11
appended until the codeword capacity is exactly reached (§4.4). -/
def padBytes (k : Nat) : List Nat :=
  (List.range k).map (fun i => if i % 2 = 0 then 236 else 17)

/-- Modelled from the spec: the complete data-codeword sequence for a
version/level (§4.4): packed bits, terminator, byte-boundary padding,
then pad bytes up to the capacity-table codeword count. -/
def dataCodewords (content : List Nat) (level : RecoveryLevel) (version : Nat) :
    List Nat :=
  let bytes := bitsToBytes (terminatedBits content level version)
  bytes ++ padBytes (numDataCodewords version level - bytes.length)

/-- Modelled from the spec: number of error-correction blocks per
(version, level) (§4.3, §4.5), the standard ISO/IEC 18004 values, given
as (L, M, Q, H) per version 1..40 (group-1 and group-2 blocks counted
together). -/
def blockCountTable : List (Nat × Nat × Nat × Nat) :=
  [(1, 1, 1, 1), (1, 1, 1, 1), (1, 1, 2, 2), (1, 2, 2, 4), (1, 2, 4, 4),
   (2, 4, 4, 4), (2, 4, 6, 5), (2, 4, 6, 6), (2, 5, 8, 8), (4, 5, 8, 8),
   (4, 5, 8, 11), (4, 8, 10, 11), (4, 9, 12, 16), (4, 9, 16, 16),
   (6, 10, 12, 18), (6, 10, 17, 16), (6, 11, 16, 19), (6, 13, 18, 21),
   (7, 14, 21, 25), (8, 16, 20, 25), (8, 17, 23, 25), (9, 17, 23, 34),
   (9, 18, 25, 30), (10, 20, 27, 32), (12, 21, 29, 35), (12, 23, 34, 37),
   (12, 25, 34, 40), (13, 26, 35, 42), (14, 28, 38, 45), (15, 29, 40, 48),
   (16, 31, 43, 51), (17, 33, 45, 54), (18, 35, 48, 57), (19, 37, 51, 60),
   (19, 38, 53, 63), (20, 40, 56, 66), (21, 43, 59, 70), (22, 45, 62, 74),
   (24, 47, 65, 77), (25, 49, 68, 81)]

/-- Modelled from the spec: block count lookup; 1 for an invalid
version so the block arithmetic stays total. -/
def blockCount (version : Nat) (level : RecoveryLevel) : Nat :=
  let row := blockCountTable.getD (version - 1) (1, 1, 1, 1)
  if version = 0 ∨ 40 < version then 1
  else
    match level with
    | .Low => row.1
    | .Medium => row.2.1
    | .Quartile => row.2.2.1
    | .Highest => row.2.2.2

/-- Modelled from the spec: the per-block data-codeword counts in block
order (§4.5): group-1 blocks hold ⌊d/b⌋ codewords, group-2 blocks one
more, with `d mod b` group-2 blocks. -/
def blockSizes (version : Nat) (level : RecoveryLevel) : List Nat :=
  let b := blockCount version level
  let d := numDataCodewords version level
  List.replicate (b - d % b) (d / b) ++ List.replicate (d % b) (d / b + 1)

/-- Modelled from the spec: split of the padded codeword sequence into
per-block chunks of the given sizes (§4.5). -/
def splitIntoBlocks : List Nat → List Nat → List (List Nat)
  | [], _ => []
  | s :: sizes, data => data.take s :: splitIntoBlocks sizes (data.drop s)

/-- Modelled from the spec: error-correction codewords per block (§4.3):
all blocks of a (version, level) carry the same EC codeword count. -/
def ecPerBlock (version : Nat) (level : RecoveryLevel) : Nat :=
  (totalCodewords version - numDataCodewords version level) / blockCount version level

/-- Modelled from the spec: multiplication of a GF(256) polynomial
(coefficient list, highest degree first) by `(x + a)` (§4.2). -/
def polyMulLin (a : Nat) (p : List Nat) : List Nat :=
  List.zipWith (· ^^^ ·) (p ++ [0]) (0 :: p.map (multiply a))

/-- Modelled from the spec: iterated construction of the Reed-Solomon
generator polynomial. -/
def rsGeneratorAux : Nat → Nat → List Nat → List Nat
  | 0, _, acc => acc
  | k + 1, i, acc => rsGeneratorAux k (i + 1) (polyMulLin (antilogTable.getD i 0) acc)

/-- Modelled from the spec: the Reed-Solomon generator polynomial, the
product of `(x - 2^i)` for i in 0..nECC (§4.2), coefficients highest
degree first with leading coefficient 1. -/
def rsGenerator (nEcc : Nat) : List Nat :=
  rsGeneratorAux nEcc 0 [1]

/-- Modelled from the spec: one step of the polynomial long division of
the degree-shifted data polynomial by the generator (§4.2), in the usual
linear-feedback form over the remainder register. -/
def rsFold (genTail : List Nat) (state : List Nat) (d : Nat) : List Nat :=
  let f := d ^^^ state.headD 0
  List.zipWith (· ^^^ ·) (state.tail ++ [0]) (genTail.map (multiply f))

/-- Modelled from the spec: the Reed-Solomon encoder (§4.2): `nEcc` EC
codewords for one block, the remainder of dividing the data polynomial
(degree-shifted by nEcc) by the generator polynomial. -/
def rsEncode (data : List Nat) (nEcc : Nat) : List Nat :=
  data.foldl (rsFold (rsGenerator nEcc).tail) (List.replicate nEcc 0)

/-- Modelled from the spec: interleaving of per-block codeword sequences
(§4.5): emit codeword index 0 of every block in block order, then index
1, and so on; short blocks contribute nothing once exhausted. -/
def interleaveBlocks (blocks : List (List Nat)) : List Nat :=
  (List.range ((blocks.map List.length).foldr max 0)).flatMap
    (fun i => blocks.filterMap (fun b => b[i]?))

/-- Modelled from the spec: the final interleaved codeword sequence
(§4.5): interleaved data codewords followed by interleaved EC
codewords. -/
def interleavedCodewords (content : List Nat) (level : RecoveryLevel)
    (version : Nat) : List Nat :=
  let dBlocks := splitIntoBlocks (blockSizes version level)
    (dataCodewords content level version)
  let eBlocks := dBlocks.map (fun b => rsEncode b (ecPerBlock version level))
  interleaveBlocks dBlocks ++ interleaveBlocks eBlocks

/-- Modelled from the spec: the interleaved codeword stream as bits, one
codeword at a time most-significant bit first (§4.5, §4.6). -/
def interleavedBits (content : List Nat) (level : RecoveryLevel)
    (version : Nat) : List Bool :=
  (interleavedCodewords content level version).flatMap (toBits 8)

/-- Modelled from the spec: the fixed color of a function-pattern cell
(§4.6 steps 1-4): finder patterns (dark except the ring at Chebyshev
distance 2 from the center), light separators, alternating timing
patterns, alignment patterns (dark except the ring at distance 1), the
fixed dark module; reserved format/version cells start light and are
written in the final step. -/
def baseDark (version r c : Nat) : Bool :=
  let n := symbolSize version
  let finder := fun (cr cc : Nat) =>
    max (max (cr - r) (r - cr)) (max (cc - c) (c - cc)) ≠ 2
  if r ≤ 6 && c ≤ 6 then finder 3 3
  else if r ≤ 6 && n ≤ c + 7 then finder 3 (n - 4)
  else if n ≤ r + 7 && c ≤ 6 then finder (n - 4) 3
  else if c == 8 && r + 8 == n then true
  else if inAlignment version r c then
    let a := (alignmentCenters version).find?
      (fun a => a - 2 ≤ r && r ≤ a + 2) |>.getD 0
    let b := (alignmentCenters version).find?
      (fun b => b - 2 ≤ c && c ≤ b + 2) |>.getD 0
    max (max (a - r) (r - a)) (max (b - c) (c - b)) ≠ 1
  else if r == 6 then c % 2 == 0
  else if c == 6 then r % 2 == 0
  else false

/-- Modelled from the spec: the matrix skeleton (§4.6 steps 1-4): an n×n
grid of module colors with all function patterns stamped and all
reserved cells light. -/
def baseMatrix (version : Nat) : List (List Bool) :=
  let n := symbolSize version
  (List.range n).map (fun r => (List.range n).map (fun c => baseDark version r c))

/-- Cell read on the module grid. -/
def getCell (m : List (List Bool)) (r c : Nat) : Bool :=
  (m.getD r []).getD c false

/-- Cell write on the module grid. -/
def setCell (m : List (List Bool)) (r c : Nat) (v : Bool) : List (List Bool) :=
  m.set r ((m.getD r []).set c v)

/-- Modelled from the spec: placement of the interleaved codeword bits
into the unreserved cells in zigzag order (§4.6 step 5); with the stream
shorter than the cell list the trailing remainder cells keep their light
base color. -/
def placeData (version : Nat) (stream : List Bool) : List (List Bool) :=
  (List.zip (zigzagCells version) stream).foldl
    (fun m p => setCell m p.1.1 p.1.2 p.2) (baseMatrix version)

/-- Modelled from the spec: the eight standard mask predicates over
(row, col) (§4.7), dark-flip where the standard formula evaluates to
zero. -/
def maskPredicate (id r c : Nat) : Bool :=
  match id with
  | 0 => (r + c) % 2 == 0
  | 1 => r % 2 == 0
  | 2 => c % 3 == 0
  | 3 => (r + c) % 3 == 0
  | 4 => (r / 2 + c / 3) % 2 == 0
  | 5 => (r * c) % 2 + (r * c) % 3 == 0
  | 6 => ((r * c) % 2 + (r * c) % 3) % 2 == 0
  | _ => ((r + c) % 2 + (r * c) % 3) % 2 == 0

/-- Modelled from the spec: application of a mask to the data region only
(§4.7); function and reserved modules are never masked. -/
def applyMask (version id : Nat) (m : List (List Bool)) : List (List Bool) :=
  let n := symbolSize version
  (List.range n).map (fun r => (List.range n).map (fun c =>
    if isReserved version r c then getCell m r c
    else xor (getCell m r c) (maskPredicate id r c)))

/-- Modelled from the spec: penalty of one run inside rule (a): runs of
at least 5 consecutive same-color modules score 3 + (run length − 5)
(§4.7). -/
def runScore (len : Nat) : Nat :=
  if 5 ≤ len then 3 + (len - 5) else 0

/-- Modelled from the spec: rule (a) scan of a single line, tracking the
current run. -/
def runPenaltyAux : Bool → Nat → List Bool → Nat
  | _, len, [] => runScore len
  | cur, len, b :: rest =>
    if b == cur then runPenaltyAux cur (len + 1) rest
    else runScore len + runPenaltyAux b 1 rest

/-- Modelled from the spec: rule (a) penalty of one row or column. -/
def runPenaltyLine : List Bool → Nat
  | [] => 0
  | b :: rest => runPenaltyAux b 1 rest

/-- The c-th column of the module grid. -/
def columnOf (m : List (List Bool)) (c : Nat) : List Bool :=
  m.map (fun row => row.getD c false)

/-- All columns of the module grid. -/
def columnsOf (n : Nat) (m : List (List Bool)) : List (List Bool) :=
  (List.range n).map (columnOf m)

/-- Modelled from the spec: penalty rule (a) (§4.7): runs of ≥5
consecutive same-color modules in any row or column. -/
def penalty1 (n : Nat) (m : List (List Bool)) : Nat :=
  (m.map runPenaltyLine).sum + ((columnsOf n m).map runPenaltyLine).sum

/-- Modelled from the spec: penalty rule (b) (§4.7): every 2×2 block of
same-color modules scores 3. -/
def penalty2 (n : Nat) (m : List (List Bool)) : Nat :=
  ((List.range (n - 1)).map (fun r =>
    3 * ((List.range (n - 1)).filter (fun c =>
      getCell m r c == getCell m r (c + 1) &&
      getCell m r c == getCell m (r + 1) c &&
      getCell m r c == getCell m (r + 1) (c + 1))).length)).sum

/-- Modelled from the spec: the 1:1:3:1:1 finder-like pattern with its
4-module light guard, as scanned by rule (c). -/
def finderPattern : List Bool :=
  [true, false, true, true, true, false, true, false, false, false, false]

/-- Occurrence count of a fixed window in a line. -/
def countOccurrences (p : List Bool) : List Bool → Nat
  | [] => 0
  | l@(_ :: rest) =>
    (if l.take p.length == p then 1 else 0) + countOccurrences p rest

/-- Modelled from the spec: penalty rule (c) (§4.7): each occurrence of
the finder-like 1:1:3:1:1 pattern, scanned in both directions over rows
and columns, scores 40. -/
def penalty3 (n : Nat) (m : List (List Bool)) : Nat :=
  let lines := m ++ columnsOf n m
  40 * ((lines.map (countOccurrences finderPattern)).sum +
        (lines.map (countOccurrences finderPattern.reverse)).sum)

/-- Modelled from the spec: penalty rule (d) (§4.7): deviation of the
dark-module percentage from 50%, scoring 10 × ⌊|dark% − 50| / 5⌋. -/
def penalty4 (m : List (List Bool)) : Nat :=
  let total := (m.map List.length).sum
  let dark := (m.map (fun row => row.countP id)).sum
  let pct := dark * 100 / total
  10 * ((if pct ≤ 50 then 50 - pct else pct - 50) / 5)

/-- Modelled from the spec: the total penalty of a candidate masked
matrix, the sum of the four rules (§4.7). -/
def penalty (n : Nat) (m : List (List Bool)) : Nat :=
  penalty1 n m + penalty2 n m + penalty3 n m + penalty4 m

/-- First-seen minimum over (mask id, penalty) candidates (§4.7: the
strictly smallest total wins, first seen wins ties). -/
def chooseMin : List (Nat × Nat) → Nat × Nat → Nat × Nat
  | [], best => best
  | cand :: rest, best =>
    chooseMin rest (if cand.2 < best.2 then cand else best)

/-- Modelled from the spec: mask selection (§4.7): score all eight
candidate masks on the filled matrix and pick the id with the smallest
penalty, first seen winning ties. -/
def selectMask (version : Nat) (m : List (List Bool)) : Nat :=
  let n := symbolSize version
  let cands := (List.range 8).map (fun id => (id, penalty n (applyMask version id m)))
  (chooseMin cands.tail (cands.headD (0, 0))).1

/-- Modelled from the spec: carry-less polynomial remainder over GF(2)
used by the BCH format/version codes (§4.8); reduces while the value has
at least `gBits` bits, with enough fuel for every 18-bit input. -/
def bchDivideAux (gen gBits : Nat) : Nat → Nat → Nat
  | 0, v => v
  | fuel + 1, v =>
    if v < 2 ^ (gBits - 1) then v
    else bchDivideAux gen gBits fuel (v ^^^ (gen <<< (v.log2 + 1 - gBits)))

/-- Modelled from the spec: the 15-bit BCH-protected format information
(§4.8): 5 data bits (2-bit level code, 3-bit mask id), generator
polynomial 0x537, XORed with the fixed mask constant 0x5412. -/
def formatInfo (level : RecoveryLevel) (mask : Nat) : Nat :=
  let levelCode :=
    match level with
    | .Low => 1
    | .Medium => 0
    | .Quartile => 3
    | .Highest => 2
  let data := levelCode * 8 + mask
  ((data <<< 10) ||| bchDivideAux 1335 11 20 (data <<< 10)) ^^^ 0x5412

/-- Modelled from the spec: the 18-bit BCH-protected version information
(§4.8), for versions ≥ 7: 6 data bits, generator polynomial 0x1F25. -/
def versionInfo (version : Nat) : Nat :=
  (version <<< 12) ||| bchDivideAux 7973 13 20 (version <<< 12)

/-- Modelled from the spec: the two standard layouts of format bit i
(§4.8), the copy around the top-left finder and the split copy under the
top-right and beside the bottom-left finders. -/
def formatBitPositions (n i : Nat) : List (Nat × Nat) :=
  let first :=
    if i ≤ 5 then (8, i)
    else if i ≤ 7 then (8, i + 1)
    else if i = 8 then (7, 8)
    else (14 - i, 8)
  let second :=
    if i ≤ 7 then (n - 1 - i, 8)
    else (8, n - 15 + i)
  [first, second]

/-- Modelled from the spec: writing the 15 format bits into both reserved
strips (§4.8). -/
def writeFormatInfo (version : Nat) (level : RecoveryLevel) (mask : Nat)
    (m : List (List Bool)) : List (List Bool) :=
  let n := symbolSize version
  let f := formatInfo level mask
  (List.range 15).foldl (fun acc i =>
    (formatBitPositions n i).foldl
      (fun acc2 p => setCell acc2 p.1 p.2 (f >>> i &&& 1 == 1)) acc) m

/-- Modelled from the spec: writing the 18 version-information bits into
both reserved 3×6 blocks (§4.8), for versions ≥ 7. -/
def writeVersionInfo (version : Nat) (m : List (List Bool)) : List (List Bool) :=
  if version < 7 then m
  else
    let n := symbolSize version
    let vi := versionInfo version
    (List.range 18).foldl (fun acc i =>
      let b := vi >>> i &&& 1 == 1
      setCell (setCell acc (i / 3) (n - 11 + i % 3) b) (n - 11 + i % 3) (i / 3) b) m

/-- Modelled from the spec: the finished symbol (§3, §6): version, chosen
mask id, recovery level and the finished module matrix. -/
structure Symbol where
  version : Nat
  maskId : Nat
  level : RecoveryLevel
  modules : List (List Bool)
deriving DecidableEq

/-- Modelled from the spec: matrix build and finalization for a selected
version (§4.6-§4.8): fill the data region in zigzag order, pick the
minimum-penalty mask, apply it, then write format and version
information. -/
def buildSymbol (content : List Nat) (level : RecoveryLevel) (version : Nat) :
    Symbol :=
  let filled := placeData version (interleavedBits content level version)
  let mask := selectMask version filled
  let masked := applyMask version mask filled
  ⟨version, mask, level,
    writeVersionInfo version (writeFormatInfo version level mask masked)⟩

/-- Modelled from the spec: the encoder entry point (§6, §7):
`encode(payload, level) -> Symbol | EncodeError`.  Version selection per
§4.4; the matrix builder's invariant check per §4.6 compares the
interleaved stream's bit count against the unreserved data cells (the
trailing remainder cells stay light). -/
def encode (content : List Nat) (level : RecoveryLevel) :
    Except EncodeError Symbol :=
  match selectVersion content level with
  | none => .error .contentTooLong
  | some version =>
    let stream := interleavedBits content level version
    if dataCellCount version < stream.length then .error .matrixOverflow
    else if stream.length + remainderBits version ≠ dataCellCount version then
      .error .matrixUnderflow
    else .ok (buildSymbol content level version)

/-- A well-formed UTF-8 rune encoding as far as `utf8.RuneStart` can see
it: one to four bytes, the first not a continuation byte, the rest
continuation bytes. -/
def RuneChunk (r : List Nat) : Prop :=
  1 ≤ r.length ∧ r.length ≤ 4 ∧ runeStart (r.headD 0) = true ∧
    ∀ b ∈ r.tail, runeStart b = false

instance (r : List Nat) : Decidable (RuneChunk r) := by
  unfold RuneChunk
  infer_instance

/-- A byte string is valid UTF-8 (for the purposes of rune-boundary
splitting) iff it is a concatenation of rune encodings. -/
def ValidUTF8 (content : List Nat) : Prop :=
  ∃ rs : List (List Nat), content = rs.flatten ∧ ∀ r ∈ rs, RuneChunk r

/-! ## Theorems -/

theorem chunkLoopF_mem {cap : Nat} (hcap : cap ≠ 0) :
    ∀ {fuel : Nat} {data ch : List Nat}, ch ∈ chunkLoopF cap fuel data →
      ch ≠ [] ∧ ch.length ≤ cap := by
  intro fuel
  induction fuel with
  | zero =>
    intro data ch h
    cases data <;> simp [chunkLoopF] at h
  | succ n ih =>
    intro data ch h
    cases data with
    | nil => simp [chunkLoopF] at h
    | cons d ds =>
      rw [chunkLoopF, List.mem_cons] at h
      rcases h with h | h
      · subst h
        refine ⟨?_, ?_⟩
        · simp [List.take_eq_nil_iff, hcap]
        · simp [List.length_take]
      · exact ih h

theorem backupToRuneStart_le (content : List Nat) :
    ∀ e, backupToRuneStart content e ≤ e := by
  intro e
  induction e with
  | zero => simp [backupToRuneStart]
  | succ n ih =>
    rw [backupToRuneStart]
    split
    · omega
    · omega

theorem chunkLoopUTF8F_mem {cap : Nat} :
    ∀ {fuel : Nat} {content ch : List Nat}, ch ∈ chunkLoopUTF8F cap fuel content →
      ch ≠ [] ∧ ch.length ≤ cap := by
  intro fuel
  induction fuel with
  | zero =>
    intro content ch h
    cases content <;> simp [chunkLoopUTF8F] at h
  | succ n ih =>
    intro content ch h
    cases content with
    | nil => simp [chunkLoopUTF8F] at h
    | cons d ds =>
      rw [chunkLoopUTF8F] at h
      split at h
      · simp at h
      · rw [List.mem_cons] at h
        rcases h with h | h
        · subst h
          rename_i he
          have hle : backupToRuneStart (d :: ds) (min cap (d :: ds).length) ≤
              min cap (d :: ds).length := backupToRuneStart_le _ _
          refine ⟨?_, ?_⟩
          · simp only [ne_eq, List.take_eq_nil_iff, List.length_cons] at he ⊢
            simp [he]
          · have := List.length_take
              (backupToRuneStart (d :: ds) (min cap (d :: ds).length)) (d :: ds)
            omega
        · exact ih h

/-- Claim C10: every chunk returned by `SplitContent` and by
`SplitContentUTF8` is non-empty and at most `MaxByteCapacity(level) - 50`
bytes long (the effective safety margin is 50 bytes), and both splitter
bodies return no chunks whenever the capacity minus the 50-byte margin is
not positive. -/
theorem c10_chunk_bounds :
    ∀ (content : List Nat) (level : RecoveryLevel),
      (∀ ch ∈ SplitContent content level,
        ch ≠ [] ∧ ch.length ≤ MaxByteCapacity level - 50) ∧
      (∀ ch ∈ SplitContentUTF8 content level,
        ch ≠ [] ∧ ch.length ≤ MaxByteCapacity level - 50) ∧
      (∀ (cap : Nat) (c : List Nat), cap - 50 = 0 →
        splitContentAux cap c = [] ∧ splitContentUTF8Aux cap c = []) := by
  intro content level
  refine ⟨?_, ?_, ?_⟩
  · intro ch hch
    unfold SplitContent splitContentAux at hch
    split at hch
    · simp at hch
    · split at hch
      · simp at hch
      · rename_i hne
        exact chunkLoopF_mem hne hch
  · intro ch hch
    unfold SplitContentUTF8 splitContentUTF8Aux at hch
    split at hch
    · simp at hch
    · split at hch
      · simp at hch
      · have h := chunkLoopUTF8F_mem hch
        exact ⟨h.1, h.2⟩
  · intro cap c hcap
    unfold splitContentAux splitContentUTF8Aux
    constructor <;>
      · split
        · rfl
        · simp [hcap]

/-- Witness for C10 at concrete inputs: a two-byte content at level
Highest yields itself as the unique (nonempty, in-bounds) chunk, and a
capacity at most 50 makes both splitter bodies return no chunks. -/
theorem c10_chunk_bounds_witness :
    (([65, 66] : List Nat) ≠ [] ∧
      ([65, 66] : List Nat).length ≤ MaxByteCapacity RecoveryLevel.Highest - 50) ∧
    (splitContentAux 30 [65] = [] ∧ splitContentUTF8Aux 30 [65] = []) :=
  ⟨(c10_chunk_bounds [65, 66] RecoveryLevel.Highest).1 [65, 66] (by decide),
   (c10_chunk_bounds [] RecoveryLevel.Highest).2.2 30 [65] (by decide)⟩

/-- Claim C2 (counterexample): `MaxByteCapacity(Highest)` does not equal
the version-40 Byte-mode data-codeword count for level Highest — the
table entry is 1276 codewords while the function returns 1273 (the
Byte-mode character capacity, i.e. the codeword count net of the 20-bit
mode-plus-length header). -/
theorem c2_counterexample :
    MaxByteCapacity RecoveryLevel.Highest ≠ numDataCodewords 40 RecoveryLevel.Highest := by
  decide

/-- Claim C2 (amended): for every recovery level, `MaxByteCapacity(level)`
equals the version-40 Byte-mode character capacity — the version-40
data-codeword count minus 3 (the 20-bit Byte-mode header rounded up to
whole codewords) — and in particular `MaxByteCapacity(Highest)` returns
exactly 1273. -/
theorem c2_max_byte_capacity :
    ∀ level : RecoveryLevel,
      MaxByteCapacity level = numDataCodewords 40 level - 3 ∧
      MaxByteCapacity RecoveryLevel.Highest = 1273 := by
  intro level
  cases level <;> exact ⟨by decide, by decide⟩

theorem chunkLoopF_flatten {cap : Nat} (hcap : cap ≠ 0) :
    ∀ (fuel : Nat) (data : List Nat), data.length ≤ fuel →
      (chunkLoopF cap fuel data).flatten = data := by
  intro fuel
  induction fuel with
  | zero =>
    intro data hlen
    cases data with
    | nil => rfl
    | cons d ds => simp at hlen
  | succ n ih =>
    intro data hlen
    cases data with
    | nil => rfl
    | cons d ds =>
      simp only [List.length_cons] at hlen
      rw [chunkLoopF, List.flatten_cons]
      rw [ih ((d :: ds).drop cap)
        (by simp only [List.length_drop, List.length_cons]; omega)]
      exact List.take_append_drop cap (d :: ds)

theorem backupToRuneStart_stop (content : List Nat) (e : Nat)
    (h : e = 0 ∨ content.length ≤ e ∨ runeStart (content.getD e 0) = true) :
    backupToRuneStart content e = e := by
  cases e with
  | zero => rfl
  | succ n =>
    rw [backupToRuneStart]
    split
    · rename_i hc
      rcases h with h | h | h
      · exact absurd h (Nat.succ_ne_zero n)
      · exact absurd hc.1 (by omega)
      · rw [h] at hc
        exact absurd hc.2 (by simp)
    · rfl

theorem backupToRuneStart_skip (content : List Nat) :
    ∀ (e p : Nat), p ≤ e →
      (∀ q, p < q → q ≤ e →
        q < content.length ∧ runeStart (content.getD q 0) = false) →
      backupToRuneStart content e = backupToRuneStart content p := by
  intro e
  induction e with
  | zero =>
    intro p hp _
    have : p = 0 := by omega
    rw [this]
  | succ n ih =>
    intro p hp hq
    rcases Nat.eq_or_lt_of_le hp with he | hlt
    · rw [he]
    · have hcond := hq (n + 1) hlt (le_refl _)
      rw [backupToRuneStart, if_pos ⟨hcond.1, hcond.2⟩]
      exact ih p (by omega) (fun q h1 h2 => hq q h1 (by omega))

theorem validSplitAt :
    ∀ (rs : List (List Nat)), (∀ r ∈ rs, RuneChunk r) →
      ∀ e, e ≤ rs.flatten.length →
        ∃ p rs1 rs2, rs = rs1 ++ rs2 ∧ p = rs1.flatten.length ∧
          p ≤ e ∧ e ≤ p + 3 ∧
          (∀ q, p < q → q ≤ e → q < rs.flatten.length ∧
            runeStart (rs.flatten.getD q 0) = false) ∧
          (p = rs.flatten.length ∨ runeStart (rs.flatten.getD p 0) = true) := by
  intro rs
  induction rs with
  | nil =>
    intro _ e he
    simp only [List.flatten_nil, List.length_nil] at he
    refine ⟨0, [], [], rfl, rfl, by omega, by omega, ?_, Or.inl (by simp)⟩
    intro q h1 h2
    omega
  | cons r rest ih =>
    intro hv e he
    have hr : RuneChunk r := hv r (by simp)
    obtain ⟨a, t, rfl⟩ : ∃ a t, r = a :: t := by
      cases r with
      | nil => exact absurd hr.1 (by simp)
      | cons a t => exact ⟨a, t, rfl⟩
    have hk4 : t.length + 1 ≤ 4 := by simpa using hr.2.1
    have hhead : runeStart a = true := by simpa using hr.2.2.1
    have htail : ∀ b ∈ t, runeStart b = false := by
      intro b hb
      exact hr.2.2.2 b (by simpa using hb)
    rw [List.flatten_cons] at he ⊢
    by_cases hek : e < t.length + 1
    · refine ⟨0, [], (a :: t) :: rest, rfl, rfl, by omega, by omega, ?_, Or.inr ?_⟩
      · intro q h1 h2
        have hql : q < (a :: t).length := by simp only [List.length_cons]; omega
        refine ⟨by simp only [List.length_append]; omega, ?_⟩
        rw [List.getD_append _ _ _ _ hql]
        obtain ⟨i, rfl⟩ : ∃ i, q = i + 1 := ⟨q - 1, by omega⟩
        rw [List.getD_eq_getElem _ _ hql, List.getElem_cons_succ]
        exact htail _ (List.getElem_mem _)
      · rw [List.getD_append _ _ _ _ (by simp only [List.length_cons]; omega)]
        simpa using hhead
    · push_neg at hek
      have hrest : ∀ x ∈ rest, RuneChunk x := fun x hx => hv x (by simp [hx])
      obtain ⟨p', rs1', rs2', hsp, hp', hpe', hep', hq', hb'⟩ :=
        ih hrest (e - (t.length + 1))
          (by simp only [List.length_append, List.length_cons] at he; omega)
      refine ⟨(a :: t).length + p', (a :: t) :: rs1', rs2', by simp [hsp], ?_,
        by simp only [List.length_cons]; omega, by simp only [List.length_cons]; omega,
        ?_, ?_⟩
      · simp only [List.flatten_cons, List.length_append, List.length_cons, hp']
      · intro q h1 h2
        simp only [List.length_cons] at h1 h2
        obtain ⟨hlt', hrs'⟩ := hq' (q - (t.length + 1)) (by omega) (by omega)
        refine ⟨by simp only [List.length_append, List.length_cons]; omega, ?_⟩
        rw [List.getD_append_right _ _ _ _ (by simp only [List.length_cons]; omega)]
        simp only [List.length_cons]
        exact hrs'
      · rcases hb' with hb' | hb'
        · refine Or.inl ?_
          simp only [List.length_append, List.length_cons]
          omega
        · refine Or.inr ?_
          rw [List.getD_append_right _ _ _ _ (by simp only [List.length_cons]; omega)]
          simpa using hb'

theorem chunkLoopUTF8F_flatten {cap : Nat} (hcap : 4 ≤ cap) :
    ∀ (fuel : Nat) (content : List Nat) (rs : List (List Nat)),
      content.length ≤ fuel → content = rs.flatten →
      (∀ r ∈ rs, RuneChunk r) →
      (chunkLoopUTF8F cap fuel content).flatten = content := by
  intro fuel
  induction fuel with
  | zero =>
    intro content rs hlen _ _
    cases content with
    | nil => rfl
    | cons d ds => simp at hlen
  | succ n ih =>
    intro content rs hlen hc hv
    cases content with
    | nil => rfl
    | cons d ds =>
      obtain ⟨p, rs1, rs2, hsplit, hp, hpe, hep, hq, hbound⟩ :=
        validSplitAt rs hv (min cap (d :: ds).length)
          (by rw [← hc]; exact min_le_right _ _)
      rw [← hc] at hq hbound
      have hback : backupToRuneStart (d :: ds) (min cap (d :: ds).length) = p := by
        rw [backupToRuneStart_skip (d :: ds) (min cap (d :: ds).length) p hpe hq]
        apply backupToRuneStart_stop
        rcases hbound with hb | hb
        · right; left; omega
        · right; right; exact hb
      have hp1 : 1 ≤ p := by
        rcases Nat.lt_or_ge ((d :: ds).length) cap with hcase | hcase
        · by_cases hpl : p < (d :: ds).length
          · exfalso
            obtain ⟨hlt, _⟩ := hq ((d :: ds).length) (by omega) (by omega)
            omega
          · simp only [List.length_cons] at hpl
            omega
        · have he0 : min cap (d :: ds).length = cap := by omega
          rw [he0] at hep
          omega
      have hdrop : (d :: ds).drop p = rs2.flatten := by
        rw [hc, hsplit, List.flatten_append, hp]
        exact List.drop_left _ _
      rw [chunkLoopUTF8F, hback, if_neg (by omega), List.flatten_cons]
      rw [ih ((d :: ds).drop p) rs2
        (by simp only [List.length_drop, List.length_cons] at *; omega)
        hdrop
        (fun r hr => hv r (by rw [hsplit]; exact List.mem_append_right _ hr))]
      exact List.take_append_drop p (d :: ds)

/-- Claim C1 (counterexample): `SplitContentUTF8` is not a pure chunker on
arbitrary byte strings.  At level Highest the effective capacity is
1273 − 50 = 1223; on a 1224-byte content consisting solely of UTF-8
continuation bytes (0x80) the rune-boundary backup walks the cut position
down to 0 and the loop stops, returning no chunks at all: the
concatenation of the returned chunks is empty rather than the original
content. -/
theorem c1_counterexample :
    (SplitContentUTF8 (List.replicate 1224 128) RecoveryLevel.Highest).flatten ≠
      List.replicate 1224 128 := by
  have hback : ∀ e, e < 1224 →
      backupToRuneStart (128 :: List.replicate 1223 128) e = 0 := by
    intro e
    induction e with
    | zero => intro _; rfl
    | succ m ihm =>
      intro h
      rw [backupToRuneStart, if_pos, ihm (by omega)]
      refine ⟨by simp only [List.length_cons, List.length_replicate]; omega, ?_⟩
      rw [List.getD_eq_getElem _ _
        (by simp only [List.length_cons, List.length_replicate]; omega)]
      rw [List.getElem_cons_succ]
      rw [List.getElem_replicate]
      decide
  have hrep : List.replicate 1224 128 = 128 :: List.replicate 1223 (128 : Nat) := by
    rw [show (1224 : Nat) = 1223 + 1 from rfl, List.replicate_succ]
  rw [hrep]
  show (splitContentUTF8Aux (MaxByteCapacity RecoveryLevel.Highest) _).flatten ≠ _
  have hmbc : MaxByteCapacity RecoveryLevel.Highest = 1273 := by decide
  rw [hmbc]
  unfold splitContentUTF8Aux
  rw [if_neg (by omega), if_neg (by omega)]
  unfold chunkLoopUTF8
  rw [show (128 :: List.replicate 1223 (128 : Nat)).length = 1223 + 1 by
    simp only [List.length_cons, List.length_replicate]]
  rw [chunkLoopUTF8F]
  rw [show min (1273 - 50) (128 :: List.replicate 1223 (128 : Nat)).length = 1223 by
    simp only [List.length_cons, List.length_replicate]; omega]
  rw [if_pos (hback 1223 (by omega))]
  simp

/-- Claim C1 (amended): `SplitContent` is a pure chunker — for every
content and every level with `MaxByteCapacity(level) - 50 > 0`,
concatenating its chunks in order yields exactly the original content —
and `SplitContentUTF8` is a pure chunker on every content that is a valid
UTF-8 byte sequence (the restriction the counterexample forces). -/
theorem c1_split_reassembles :
    ∀ (content : List Nat) (level : RecoveryLevel), 50 < MaxByteCapacity level →
      (SplitContent content level).flatten = content ∧
      (ValidUTF8 content → (SplitContentUTF8 content level).flatten = content) := by
  intro content level hlevel
  constructor
  · unfold SplitContent splitContentAux
    rw [if_neg (by omega), if_neg (by omega)]
    exact chunkLoopF_flatten (by omega) content.length content (le_refl _)
  · intro hvalid
    obtain ⟨rs, hc, hv⟩ := hvalid
    unfold SplitContentUTF8 splitContentUTF8Aux
    rw [if_neg (by omega), if_neg (by omega)]
    have hcap4 : 4 ≤ MaxByteCapacity level - 50 := by
      cases level <;> decide
    exact chunkLoopUTF8F_flatten hcap4 content.length content rs (le_refl _) hc hv

/-- Witness for C1 (amended) at concrete inputs: at level Highest a
two-byte ASCII content round-trips through `SplitContent`, and a
three-byte valid-UTF-8 content (an ASCII byte followed by a two-byte
rune) round-trips through `SplitContentUTF8`. -/
theorem c1_split_reassembles_witness :
    50 < MaxByteCapacity RecoveryLevel.Highest ∧
    (SplitContent [104, 105] RecoveryLevel.Highest).flatten = [104, 105] ∧
    (SplitContentUTF8 [104, 195, 169] RecoveryLevel.Highest).flatten =
      [104, 195, 169] :=
  ⟨by decide,
   (c1_split_reassembles [104, 105] RecoveryLevel.Highest (by decide)).1,
   (c1_split_reassembles [104, 195, 169] RecoveryLevel.Highest (by decide)).2
     ⟨[[104], [195, 169]], rfl, by decide⟩⟩

/-- Claim C9: `GridImage` layout: an empty code list yields a 0x0 image;
for a non-empty list of n codes with pixel size `size` and `cols ≤ 0` the
column count is ⌈√n⌉ (the least k with n ≤ k²), the row count is ⌈n/cols⌉
(the least r with n ≤ cols·r, computed as (n+cols-1)/cols), the image
bounds are exactly (cols·size) × (rows·size), and code i occupies the
cell at column i mod cols, row i div cols. -/
theorem c9_grid_image :
    (∀ (size : Nat) (cols : Int), GridImage 0 size cols = ⟨0, 0, 0, 0, []⟩) ∧
    (∀ (n size : Nat) (cols : Int), n ≠ 0 → cols ≤ 0 →
      GridImage n size cols =
        ⟨intCeilSqrt n, (n + intCeilSqrt n - 1) / intCeilSqrt n,
         intCeilSqrt n * size, ((n + intCeilSqrt n - 1) / intCeilSqrt n) * size,
         (List.range n).map (fun i =>
           (i, (i % intCeilSqrt n) * size, (i / intCeilSqrt n) * size))⟩) ∧
    (∀ n : Nat, n ≤ intCeilSqrt n * intCeilSqrt n ∧
      ∀ k, n ≤ k * k → intCeilSqrt n ≤ k) ∧
    (∀ n c : Nat, 0 < c → n ≤ c * ((n + c - 1) / c) ∧
      ∀ r, n ≤ c * r → (n + c - 1) / c ≤ r) := by
  refine ⟨?_, ?_, ?_, ?_⟩
  · intro size cols
    simp [GridImage]
  · intro n size cols hn hc
    simp [GridImage, hn, hc]
  · intro n
    constructor
    · unfold intCeilSqrt
      split
      · rename_i h
        omega
      · exact le_of_lt (Nat.lt_succ_sqrt n)
    · intro k hk
      have hsk : Nat.sqrt n ≤ k := by
        have := Nat.sqrt_le_sqrt hk
        rwa [Nat.sqrt_eq] at this
      unfold intCeilSqrt
      split
      · exact hsk
      · rename_i h
        rcases Nat.eq_or_lt_of_le hsk with he | hlt
        · exfalso
          apply h
          rw [he]
          exact le_antisymm (he ▸ Nat.sqrt_le n) hk
        · omega
  · intro n c hc
    constructor
    · have hdm := Nat.div_add_mod (n + c - 1) c
      have hm : (n + c - 1) % c < c := Nat.mod_lt _ hc
      omega
    · intro r hr
      have : (n + c - 1) / c < r + 1 := by
        rw [Nat.div_lt_iff_lt_mul hc, Nat.add_mul, Nat.one_mul,
          Nat.mul_comm c r] at *
        omega
      omega

/-- Witness for C9 at a concrete input: five codes at pixel size 10 with
auto columns lay out as a 3×2 grid of 30×20 pixels with the expected cell
origins, and 3 = ⌈√5⌉ bounds 5 from above. -/
theorem c9_grid_image_witness :
    GridImage 5 10 0 =
      ⟨3, 2, 30, 20, [(0, 0, 0), (1, 10, 0), (2, 20, 0), (3, 0, 10), (4, 10, 10)]⟩ ∧
    5 ≤ intCeilSqrt 5 * intCeilSqrt 5 := by
  have h3 : intCeilSqrt 5 = 3 := by
    have h1 := (c9_grid_image.2.2.1 5).1
    have h2 := (c9_grid_image.2.2.1 5).2 3 (by omega)
    interval_cases h : intCeilSqrt 5 <;> omega
  constructor
  · rw [c9_grid_image.2.1 5 10 0 (by decide) (by decide), h3]
    decide
  · exact (c9_grid_image.2.2.1 5).1

theorem toBits_length (w : Nat) : ∀ value, (toBits w value).length = w := by
  induction w with
  | zero => intro value; rfl
  | succ n ih =>
    intro value
    rw [toBits, List.length_cons, ih]

theorem sum_map_add {α : Type} (l : List α) (f g : α → Nat) :
    (l.map (fun x => f x + g x)).sum = (l.map f).sum + (l.map g).sum := by
  induction l with
  | nil => rfl
  | cons a rest ih =>
    simp only [List.map_cons, List.sum_cons, ih]
    omega

theorem sum_map_const {α : Type} (l : List α) (c : Nat) :
    (l.map (fun _ => c)).sum = l.length * c := by
  induction l with
  | nil => simp
  | cons a rest ih =>
    simp only [List.map_cons, List.sum_cons, List.length_cons, ih]
    ring

theorem sum_range_indicator (k : Nat) :
    ∀ m, ((List.range m).map (fun i => if i < k then 1 else 0)).sum = min m k := by
  intro m
  induction m with
  | zero => simp
  | succ n ih =>
    rw [List.range_succ, List.map_append, List.sum_append, ih]
    simp only [List.map_cons, List.map_nil, List.sum_cons, List.sum_nil]
    split <;> omega

theorem interleave_core_length :
    ∀ (blocks : List (List Nat)) (m : Nat), (∀ b ∈ blocks, b.length ≤ m) →
      ((List.range m).flatMap (fun i => blocks.filterMap (fun b => b[i]?))).length =
        (blocks.map List.length).sum := by
  intro blocks
  induction blocks with
  | nil =>
    intro m _
    simp [List.flatMap]
  | cons b rest ih =>
    intro m hm
    have hfm : ∀ i : Nat,
        ((b :: rest).filterMap (fun x => x[i]?)).length =
          (if i < b.length then 1 else 0) +
            (rest.filterMap (fun x => x[i]?)).length := by
      intro i
      rw [List.filterMap_cons]
      rcases Nat.lt_or_ge i b.length with h | h
      · rw [List.getElem?_eq_getElem h]
        simp only [List.length_cons, if_pos h]
        omega
      · rw [List.getElem?_eq_none h]
        simp
        omega
    have hflat : ∀ (bs : List (List Nat)),
        ((List.range m).flatMap (fun i => bs.filterMap (fun x => x[i]?))).length =
          ((List.range m).map
            (fun i => (bs.filterMap (fun x => x[i]?)).length)).sum := by
      intro bs
      rw [List.flatMap, List.length_flatten, List.map_map]
      rfl
    rw [hflat]
    simp only [hfm]
    rw [sum_map_add, sum_range_indicator, ← hflat,
      ih m (fun x hx => hm x (List.mem_cons_of_mem _ hx))]
    have hb : b.length ≤ m := hm b (List.mem_cons_self _ _)
    simp only [List.map_cons, List.sum_cons]
    omega

theorem foldr_max_le (blocks : List (List Nat)) :
    ∀ b ∈ blocks, b.length ≤ (blocks.map List.length).foldr max 0 := by
  induction blocks with
  | nil => intro b hb; simp at hb
  | cons x rest ih =>
    intro b hb
    rcases List.mem_cons.mp hb with rfl | hb
    · simp only [List.map_cons, List.foldr_cons]
      exact Nat.le_max_left _ _
    · simp only [List.map_cons, List.foldr_cons]
      exact le_trans (ih b hb) (Nat.le_max_right _ _)

theorem interleaveBlocks_length (blocks : List (List Nat)) :
    (interleaveBlocks blocks).length = (blocks.map List.length).sum :=
  interleave_core_length blocks _ (foldr_max_le blocks)

theorem flatMap_toBits8_length :
    ∀ l : List Nat, (l.flatMap (toBits 8)).length = 8 * l.length := by
  intro l
  induction l with
  | nil => rfl
  | cons x xs ih =>
    rw [List.flatMap_cons, List.length_append, ih, toBits_length, List.length_cons]
    ring

theorem terminatedBits_length_mod (content : List Nat) (level : RecoveryLevel)
    (version : Nat) : (terminatedBits content level version).length % 8 = 0 := by
  unfold terminatedBits
  simp only [List.length_append, List.length_replicate]
  omega

theorem terminatedBits_length_le (content : List Nat) (level : RecoveryLevel)
    (version : Nat)
    (h : (packedBits content version).length ≤ 8 * numDataCodewords version level) :
    (terminatedBits content level version).length ≤
      8 * numDataCodewords version level := by
  unfold terminatedBits
  simp only [List.length_append, List.length_replicate]
  omega

theorem bitsToBytes_length_aux :
    ∀ (n : Nat) (bits : List Bool), bits.length ≤ n → bits.length % 8 = 0 →
      (bitsToBytes bits).length = bits.length / 8 := by
  intro n
  induction n with
  | zero =>
    intro bits hlen _
    cases bits with
    | nil => rfl
    | cons b rest => simp at hlen
  | succ m ih =>
    intro bits hlen hmod
    rcases bits with _ | ⟨b7, _ | ⟨b6, _ | ⟨b5, _ | ⟨b4, _ | ⟨b3, _ | ⟨b2,
      _ | ⟨b1, _ | ⟨b0, rest⟩⟩⟩⟩⟩⟩⟩⟩ <;>
      simp only [List.length_cons, List.length_nil] at hlen hmod ⊢
    · rfl
    all_goals try omega
    rw [bitsToBytes, List.length_cons,
      ih rest (by omega) (by omega)]
    omega

theorem bitsToBytes_length (bits : List Bool) (h : bits.length % 8 = 0) :
    (bitsToBytes bits).length = bits.length / 8 :=
  bitsToBytes_length_aux bits.length bits (le_refl _) h

theorem padBytes_length (k : Nat) : (padBytes k).length = k := by
  simp [padBytes]

theorem dataCodewords_length (content : List Nat) (level : RecoveryLevel)
    (version : Nat)
    (h : (packedBits content version).length ≤ 8 * numDataCodewords version level) :
    (dataCodewords content level version).length = numDataCodewords version level := by
  unfold dataCodewords
  rw [List.length_append, padBytes_length,
    bitsToBytes_length _ (terminatedBits_length_mod content level version)]
  have hle := terminatedBits_length_le content level version h
  have : (terminatedBits content level version).length / 8 ≤
      8 * numDataCodewords version level / 8 :=
    Nat.div_le_div_right hle
  rw [Nat.mul_div_cancel_left _ (by omega : 0 < 8)] at this
  omega

theorem blockSizes_sum (version : Nat) (level : RecoveryLevel)
    (hb : 0 < blockCount version level) :
    (blockSizes version level).sum = numDataCodewords version level := by
  unfold blockSizes
  rw [List.sum_append, List.sum_replicate, List.sum_replicate, smul_eq_mul,
    smul_eq_mul]
  have hdm := Nat.div_add_mod (numDataCodewords version level)
    (blockCount version level)
  have hmlt := Nat.mod_lt (numDataCodewords version level) hb
  rw [Nat.sub_mul, Nat.mul_add, Nat.mul_one]
  have hmq : numDataCodewords version level % blockCount version level *
      (numDataCodewords version level / blockCount version level) ≤
        blockCount version level *
          (numDataCodewords version level / blockCount version level) :=
    Nat.mul_le_mul_right _ (le_of_lt hmlt)
  omega

theorem blockSizes_length (version : Nat) (level : RecoveryLevel)
    (hb : 0 < blockCount version level) :
    (blockSizes version level).length = blockCount version level := by
  unfold blockSizes
  have hmlt := Nat.mod_lt (numDataCodewords version level) hb
  simp only [List.length_append, List.length_replicate]
  omega

theorem splitIntoBlocks_map_length :
    ∀ (sizes data : List Nat), data.length = sizes.sum →
      (splitIntoBlocks sizes data).map List.length = sizes := by
  intro sizes
  induction sizes with
  | nil => intro data _; rfl
  | cons s rest ih =>
    intro data hlen
    rw [List.sum_cons] at hlen
    rw [splitIntoBlocks, List.map_cons, List.length_take,
      ih (data.drop s) (by simp only [List.length_drop]; omega)]
    congr 1
    omega

theorem splitIntoBlocks_length :
    ∀ (sizes data : List Nat), (splitIntoBlocks sizes data).length = sizes.length := by
  intro sizes
  induction sizes with
  | nil => intro data; rfl
  | cons s rest ih =>
    intro data
    rw [splitIntoBlocks, List.length_cons, List.length_cons, ih]

theorem polyMulLin_length (a : Nat) (p : List Nat) :
    (polyMulLin a p).length = p.length + 1 := by
  unfold polyMulLin
  simp

theorem rsGeneratorAux_length :
    ∀ (k i : Nat) (acc : List Nat), (rsGeneratorAux k i acc).length = acc.length + k := by
  intro k
  induction k with
  | zero => intro i acc; rfl
  | succ m ih =>
    intro i acc
    rw [rsGeneratorAux, ih, polyMulLin_length]
    omega

theorem rsGenerator_length (nEcc : Nat) : (rsGenerator nEcc).length = nEcc + 1 := by
  unfold rsGenerator
  rw [rsGeneratorAux_length]
  simp [Nat.add_comm]

theorem rsFold_length (genTail state : List Nat) (d : Nat)
    (h : state.length = genTail.length) :
    (rsFold genTail state d).length = state.length := by
  unfold rsFold
  cases state with
  | nil =>
    simp only [List.length_nil] at h ⊢
    simp [← h]
  | cons x xs =>
    simp only [List.length_cons] at h ⊢
    simp only [List.length_zipWith, List.tail_cons, List.length_append,
      List.length_map, List.length_cons, List.length_nil]
    omega

theorem foldl_rsFold_length (genTail : List Nat) :
    ∀ (data state : List Nat), state.length = genTail.length →
      (data.foldl (rsFold genTail) state).length = genTail.length := by
  intro data
  induction data with
  | nil => intro state h; exact h
  | cons d rest ih =>
    intro state h
    rw [List.foldl_cons]
    exact ih _ (by rw [rsFold_length _ _ _ h]; exact h)

theorem rsEncode_length (data : List Nat) (nEcc : Nat) :
    (rsEncode data nEcc).length = nEcc := by
  unfold rsEncode
  have hg : ((rsGenerator nEcc).tail).length = nEcc := by
    rw [List.length_tail, rsGenerator_length]
    omega
  rw [foldl_rsFold_length _ data _ (by rw [List.length_replicate, hg]), hg]

theorem blockTableFacts :
    ∀ level : RecoveryLevel, ∀ v < 41, 1 ≤ v →
      0 < blockCount v level ∧
      numDataCodewords v level ≤ totalCodewords v ∧
      (totalCodewords v - numDataCodewords v level) % blockCount v level = 0 := by
  intro level
  cases level <;> decide

theorem interleavedCodewords_length (content : List Nat) (level : RecoveryLevel)
    (version : Nat) (hv1 : 1 ≤ version) (hv40 : version ≤ 40)
    (hfit : (packedBits content version).length ≤
      8 * numDataCodewords version level) :
    (interleavedCodewords content level version).length = totalCodewords version := by
  obtain ⟨hb, hdt, hdvd⟩ := blockTableFacts level version (by omega) hv1
  unfold interleavedCodewords
  have hdata : (dataCodewords content level version).length =
      (blockSizes version level).sum := by
    rw [dataCodewords_length content level version hfit,
      blockSizes_sum version level hb]
  have hmap := splitIntoBlocks_map_length (blockSizes version level)
    (dataCodewords content level version) hdata
  rw [List.length_append, interleaveBlocks_length, interleaveBlocks_length, hmap,
    blockSizes_sum version level hb]
  have hecmap : (List.map List.length
      ((splitIntoBlocks (blockSizes version level)
        (dataCodewords content level version)).map
        (fun b => rsEncode b (ecPerBlock version level)))) =
      (splitIntoBlocks (blockSizes version level)
        (dataCodewords content level version)).map
        (fun _ => ecPerBlock version level) := by
    rw [List.map_map]
    exact List.map_congr_left (fun b _ => rsEncode_length b _)
  rw [hecmap, sum_map_const, splitIntoBlocks_length,
    blockSizes_length version level hb]
  unfold ecPerBlock
  rw [Nat.mul_div_cancel' (Nat.dvd_of_mod_eq_zero hdvd)]
  omega

theorem interleavedBits_length (content : List Nat) (level : RecoveryLevel)
    (version : Nat) (hv1 : 1 ≤ version) (hv40 : version ≤ 40)
    (hfit : (packedBits content version).length ≤
      8 * numDataCodewords version level) :
    (interleavedBits content level version).length = 8 * totalCodewords version := by
  unfold interleavedBits
  rw [flatMap_toBits8_length,
    interleavedCodewords_length content level version hv1 hv40 hfit]

theorem cellCountFacts :
    ∀ v < 41, 1 ≤ v →
      dataCellCount v = 8 * totalCodewords v + remainderBits v := by
  decide

theorem dataCellCount_agrees_cells :
    dataCellCount 1 = dataCellCountCells 1 ∧
    dataCellCount 2 = dataCellCountCells 2 ∧
    dataCellCount 7 = dataCellCountCells 7 := by
  refine ⟨by decide, by decide, by decide⟩

theorem selectVersion_bounds (content : List Nat) (level : RecoveryLevel)
    (version : Nat) (h : selectVersion content level = some version) :
    1 ≤ version ∧ version ≤ 40 ∧ fitsVersion content level version = true := by
  have hmem := List.mem_of_find?_eq_some h
  rw [List.mem_range'_1] at hmem
  exact ⟨hmem.1, by omega, List.find?_some h⟩

theorem fitsVersion_le (content : List Nat) (level : RecoveryLevel) (version : Nat)
    (h : fitsVersion content level version = true) :
    (packedBits content version).length ≤ 8 * numDataCodewords version level := by
  unfold fitsVersion at h
  exact of_decide_eq_true h

theorem encode_some (content : List Nat) (level : RecoveryLevel) (version : Nat)
    (h : selectVersion content level = some version) :
    encode content level = .ok (buildSymbol content level version) := by
  obtain ⟨hv1, hv40, hfit⟩ := selectVersion_bounds content level version h
  have hlen := interleavedBits_length content level version hv1 hv40
    (fitsVersion_le content level version hfit)
  have hcells := cellCountFacts version (by omega) hv1
  unfold encode
  rw [h]
  show (if dataCellCount version < (interleavedBits content level version).length
      then Except.error EncodeError.matrixOverflow
      else if (interleavedBits content level version).length +
          remainderBits version ≠ dataCellCount version
        then Except.error EncodeError.matrixUnderflow
        else Except.ok (buildSymbol content level version)) =
    Except.ok (buildSymbol content level version)
  rw [if_neg (by omega), if_neg (by omega)]

theorem encode_none (content : List Nat) (level : RecoveryLevel)
    (h : selectVersion content level = none) :
    encode content level = .error .contentTooLong := by
  unfold encode
  rw [h]

/-- Claim C7 (counterexample): the interleaved codeword stream's bit count
(8 × the total-codeword table entry) does not equal the number of
unreserved data cells for every validated combination: version 2 — which
the validated pipeline selects, e.g. for a 20-byte Byte-mode payload at
level Low — has 359 unreserved data cells but only 8·44 = 352 stream
bits, so under the claim's fail-iff condition the builder would fail on a
reachable input. -/
theorem c7_counterexample :
    selectVersion (List.replicate 20 35) RecoveryLevel.Low = some 2 ∧
    8 * totalCodewords 2 ≠ dataCellCount 2 := by
  exact ⟨by decide, by decide⟩

/-- Claim C7 (amended): the unreserved data cells exceed the stream's
8 × total-codeword bits by exactly the version's remainder-bit count
(0, 3, 4 or 7 — a detail the spec's §4.4/§4.6 narrative omits); the
builder places all stream bits, leaving the remainder cells light, and
with the fail condition adjusted accordingly the MatrixOverflow /
MatrixUnderflow branch is unreachable for every (version, level, mode)
the validated pipeline produces: for every successfully encoded symbol
the codeword bits placed equal exactly 8 × the total-codeword entry. -/
theorem c7_matrix_fill :
    (∀ v, 1 ≤ v → v ≤ 40 → ∀ _level : RecoveryLevel,
      dataCellCount v = 8 * totalCodewords v + remainderBits v) ∧
    (∀ (content : List Nat) (level : RecoveryLevel),
      encode content level ≠ .error .matrixOverflow ∧
      encode content level ≠ .error .matrixUnderflow) ∧
    (∀ (content : List Nat) (level : RecoveryLevel) (s : Symbol),
      encode content level = .ok s →
      (interleavedBits content level s.version).length =
        8 * totalCodewords s.version) := by
  refine ⟨?_, ?_, ?_⟩
  · intro v hv1 hv40 _level
    exact cellCountFacts v (by omega) hv1
  · intro content level
    rcases h : selectVersion content level with _ | v
    · rw [encode_none content level h]
      exact ⟨by simp, by simp⟩
    · rw [encode_some content level v h]
      exact ⟨by simp, by simp⟩
  · intro content level s hs
    rcases h : selectVersion content level with _ | v
    · rw [encode_none content level h] at hs
      simp at hs
    · rw [encode_some content level v h] at hs
      obtain ⟨hv1, hv40, hfit⟩ := selectVersion_bounds content level v h
      have hsv : s.version = v := by
        injection hs with hs'
        rw [← hs']
        rfl
      rw [hsv]
      exact interleavedBits_length content level v hv1 hv40
        (fitsVersion_le content level v hfit)

/-- Witness for C7 (amended) at concrete inputs: version 1 has exactly
8·26 data cells, a one-byte payload at level Low never hits the matrix
error branch, and its interleaved stream carries exactly 8·26 bits. -/
theorem c7_matrix_fill_witness :
    dataCellCount 1 = 8 * totalCodewords 1 + remainderBits 1 ∧
    encode [65] RecoveryLevel.Low ≠ Except.error EncodeError.matrixOverflow ∧
    (interleavedBits [65] RecoveryLevel.Low
        (buildSymbol [65] RecoveryLevel.Low 1).version).length =
      8 * totalCodewords (buildSymbol [65] RecoveryLevel.Low 1).version :=
  ⟨c7_matrix_fill.1 1 (by decide) (by decide) RecoveryLevel.Low,
   (c7_matrix_fill.2.1 [65] RecoveryLevel.Low).1,
   c7_matrix_fill.2.2 [65] RecoveryLevel.Low (buildSymbol [65] RecoveryLevel.Low 1)
     (encode_some [65] RecoveryLevel.Low 1 (by decide))⟩

theorem find?_range'_some (p : Nat → Bool) :
    ∀ (k a v : Nat), (List.range' a k).find? p = some v →
      p v = true ∧ a ≤ v ∧ v < a + k ∧ ∀ u, a ≤ u → u < v → p u = false := by
  intro k
  induction k with
  | zero =>
    intro a v h
    rw [List.range'_zero] at h
    simp at h
  | succ n ih =>
    intro a v h
    rw [List.range'_succ] at h
    by_cases hpa : p a = true
    · rw [List.find?_cons_of_pos _ hpa] at h
      injection h with h
      subst h
      exact ⟨hpa, le_refl _, by omega, fun u h1 h2 => by omega⟩
    · rw [List.find?_cons_of_neg _ hpa] at h
      obtain ⟨hv, hb1, hb2, hbelow⟩ := ih (a + 1) v h
      refine ⟨hv, by omega, by omega, ?_⟩
      intro u h1 h2
      rcases Nat.eq_or_lt_of_le h1 with rfl | hgt
      · exact Bool.eq_false_iff.mpr hpa
      · exact hbelow u (by omega) h2

theorem find?_range'_none (p : Nat → Bool) (k a : Nat)
    (h : (List.range' a k).find? p = none) :
    ∀ u, a ≤ u → u < a + k → p u = false := by
  intro u h1 h2
  have := List.find?_eq_none.mp h u (List.mem_range'_1.mpr ⟨h1, h2⟩)
  exact Bool.eq_false_iff.mpr this

theorem packedBits_length (content : List Nat) (version : Nat) :
    (packedBits content version).length =
      4 + charCountBits (classify content) version +
        (dataBits (classify content) content).length := by
  unfold packedBits
  simp only [List.length_append, toBits_length]

theorem byteBits_length (content : List Nat) :
    (byteBits content).length = 8 * content.length :=
  flatMap_toBits8_length content

theorem fitsVersion_true_iff (content : List Nat) (level : RecoveryLevel)
    (version : Nat) :
    fitsVersion content level version = true ↔
      4 + charCountBits (classify content) version +
        (dataBits (classify content) content).length ≤
        8 * numDataCodewords version level := by
  unfold fitsVersion
  rw [decide_eq_true_eq, packedBits_length]

theorem classify_replicate35 (k : Nat) (hk : k ≠ 0) :
    classify (List.replicate k 35) = Mode.byte := by
  simp [classify, List.all_replicate, hk, isDigitByte, isAlphanumericByte]

theorem dataBits_byte (content : List Nat) :
    dataBits Mode.byte content = byteBits content := rfl

theorem selectVersion_boundary_1273 :
    selectVersion (List.replicate 1273 35) RecoveryLevel.Highest = some 40 := by
  have hmode := classify_replicate35 1273 (by omega)
  have hfit40 : fitsVersion (List.replicate 1273 35) RecoveryLevel.Highest 40 = true := by
    rw [fitsVersion_true_iff, hmode, dataBits_byte, byteBits_length,
      List.length_replicate]
    decide
  have harith : ∀ u < 40, 1 ≤ u →
      ¬(4 + charCountBits Mode.byte u + 8 * 1273 ≤
        8 * numDataCodewords u RecoveryLevel.Highest) := by decide
  have hbelow : ∀ u, 1 ≤ u → u < 40 →
      fitsVersion (List.replicate 1273 35) RecoveryLevel.Highest u = false := by
    intro u h1 h2
    rw [Bool.eq_false_iff, ne_eq, fitsVersion_true_iff, hmode, dataBits_byte,
      byteBits_length, List.length_replicate]
    exact harith u h2 h1
  rcases h : selectVersion (List.replicate 1273 35) RecoveryLevel.Highest with _ | v
  · exfalso
    have := find?_range'_none _ _ _ h 40 (by omega) (by omega)
    rw [hfit40] at this
    exact Bool.noConfusion this
  · obtain ⟨_, hb1, hb2, hbelow'⟩ := find?_range'_some _ 40 1 v h
    have hv40 : v = 40 := by
      by_contra hne
      have hvlt : v < 40 := by omega
      have := hbelow v (by omega) hvlt
      obtain ⟨hfit, _, _, _⟩ := find?_range'_some _ 40 1 v h
      rw [hfit] at this
      exact Bool.noConfusion this
    rw [hv40]

theorem selectVersion_boundary_1274 :
    selectVersion (List.replicate 1274 35) RecoveryLevel.Highest = none := by
  have hmode := classify_replicate35 1274 (by omega)
  have harith : ∀ u < 41, 1 ≤ u →
      ¬(4 + charCountBits Mode.byte u + 8 * 1274 ≤
        8 * numDataCodewords u RecoveryLevel.Highest) := by decide
  have hnone : ∀ u, 1 ≤ u → u ≤ 40 →
      fitsVersion (List.replicate 1274 35) RecoveryLevel.Highest u = false := by
    intro u h1 h2
    rw [Bool.eq_false_iff, ne_eq, fitsVersion_true_iff, hmode, dataBits_byte,
      byteBits_length, List.length_replicate]
    exact harith u (by omega) h1
  rcases h : selectVersion (List.replicate 1274 35) RecoveryLevel.Highest with _ | v
  · rfl
  · exfalso
    obtain ⟨hfit, hb1, hb2, _⟩ := find?_range'_some _ 40 1 v h
    have := hnone v hb1 (by omega)
    rw [hfit] at this
    exact Bool.noConfusion this

/-- Claim C3: the encoder selects the smallest version in 1..40 whose
data capacity (for the chosen level and mode) fits the packed bitstream;
encode fails with ContentTooLong iff no version up to 40 suffices; a
Byte-mode payload of exactly 1273 bytes (the version-40/Highest boundary)
encodes successfully while 1274 bytes fail with ContentTooLong. -/
theorem c3_version_selection :
    (∀ (content : List Nat) (level : RecoveryLevel),
      (∀ v, selectVersion content level = some v →
        fitsVersion content level v = true ∧ 1 ≤ v ∧ v ≤ 40 ∧
        ∀ u, 1 ≤ u → u < v → fitsVersion content level u = false) ∧
      (selectVersion content level = none →
        ∀ u, 1 ≤ u → u ≤ 40 → fitsVersion content level u = false) ∧
      (encode content level = .error .contentTooLong ↔
        selectVersion content level = none)) ∧
    (encode (List.replicate 1273 35) RecoveryLevel.Highest).isOk = true ∧
    encode (List.replicate 1274 35) RecoveryLevel.Highest =
      .error .contentTooLong := by
  refine ⟨?_, ?_, ?_⟩
  · intro content level
    refine ⟨?_, ?_, ?_⟩
    · intro v h
      obtain ⟨hfit, hb1, hb2, hbelow⟩ := find?_range'_some _ 40 1 v h
      exact ⟨hfit, hb1, by omega, fun u h1 h2 => hbelow u h1 h2⟩
    · intro h u h1 h2
      exact find?_range'_none _ 40 1 h u h1 (by omega)
    · constructor
      · intro h
        rcases hs : selectVersion content level with _ | v
        · rfl
        · rw [encode_some content level v hs] at h
          exact Except.noConfusion h
      · intro h
        exact encode_none content level h
  · rw [encode_some _ _ 40 selectVersion_boundary_1273]
    rfl
  · exact encode_none _ _ selectVersion_boundary_1274

/-- Witness for C3 at a concrete input: the single digit "5" selects
version 1 at level Low, whose capacity fits its packed bitstream. -/
theorem c3_version_selection_witness :
    fitsVersion [53] RecoveryLevel.Low 1 = true :=
  ((c3_version_selection.1 [53] RecoveryLevel.Low).1 1 (by decide)).1


theorem numericBits_length :
    ∀ ds : List Nat, (numericBits ds).length =
      10 * (ds.length / 3) +
        (if ds.length % 3 = 2 then 7 else if ds.length % 3 = 1 then 4 else 0) := by
  intro ds
  induction ds using numericBits.induct with
  | case1 d1 d2 d3 rest ih =>
    rw [numericBits, List.length_append, toBits_length, ih]
    simp only [List.length_cons]
    have h3 : (rest.length + 1 + 1 + 1) % 3 = rest.length % 3 := by omega
    simp only [h3]
    omega
  | case2 d1 d2 =>
    rw [numericBits, toBits_length]
    simp
  | case3 d1 =>
    rw [numericBits, toBits_length]
    simp
  | case4 => rfl

/-- Claim C4: mode classification is total and exclusive: the chosen mode
is Numeric iff every byte is an ASCII digit; otherwise Alphanumeric iff
every byte belongs to the 45-symbol set; otherwise Byte over the payload
bytes; and exactly one of the three modes is chosen for the whole
payload. -/
theorem c4_mode_classification :
    ∀ content : List Nat,
      (classify content = Mode.numeric ↔ content.all isDigitByte = true) ∧
      (content.all isDigitByte = false →
        (classify content = Mode.alphanumeric ↔
          content.all isAlphanumericByte = true)) ∧
      (content.all isDigitByte = false → content.all isAlphanumericByte = false →
        classify content = Mode.byte) ∧
      (classify content = Mode.numeric ∨ classify content = Mode.alphanumeric ∨
        classify content = Mode.byte) := by
  intro content
  unfold classify
  by_cases h1 : content.all isDigitByte = true
  · simp [h1]
  · have h1' : content.all isDigitByte = false := Bool.eq_false_iff.mpr h1
    by_cases h2 : content.all isAlphanumericByte = true
    · simp [h1', h2]
    · have h2' : content.all isAlphanumericByte = false := Bool.eq_false_iff.mpr h2
      simp [h1', h2']

/-- Witness for C4 at concrete inputs: a digit classifies as Numeric, an
uppercase letter as Alphanumeric, and a byte outside the 45-symbol set
as Byte. -/
theorem c4_mode_classification_witness :
    classify [53] = Mode.numeric ∧ classify [65] = Mode.alphanumeric ∧
    classify [35] = Mode.byte :=
  ⟨(c4_mode_classification [53]).1.mpr (by decide),
   ((c4_mode_classification [65]).2.1 (by decide)).mpr (by decide),
   (c4_mode_classification [35]).2.2.1 (by decide) (by decide)⟩

theorem dataBits_numeric (content : List Nat) :
    dataBits Mode.numeric content = numericBits content := rfl

/-- Claim C5: for every digit-only payload (of a length some version
accepts), the chosen mode is Numeric and the packed bit count — mode
indicator plus count indicator plus data bits, before terminator and
padding — equals 4 + count_indicator_width + 10·⌊L/3⌋ + (7 if L mod 3 = 2,
4 if L mod 3 = 1, else 0). -/
theorem c5_numeric_packing :
    ∀ (ds : List Nat) (level : RecoveryLevel) (version : Nat),
      ds.all isDigitByte = true → selectVersion ds level = some version →
      classify ds = Mode.numeric ∧
      (packedBits ds version).length =
        4 + charCountBits Mode.numeric version + 10 * (ds.length / 3) +
          (if ds.length % 3 = 2 then 7 else if ds.length % 3 = 1 then 4 else 0) := by
  intro ds level version hd _
  have hmode : classify ds = Mode.numeric := by
    unfold classify
    simp [hd]
  refine ⟨hmode, ?_⟩
  rw [packedBits_length, hmode, dataBits_numeric, numericBits_length]
  omega

/-- Witness for C5 at a concrete input: the four digits "1234" at level
Low pack into 4 + 10 + 10·1 + 4 bits at the selected version 1. -/
theorem c5_numeric_packing_witness :
    classify [49, 50, 51, 52] = Mode.numeric ∧
    (packedBits [49, 50, 51, 52] 1).length =
      4 + charCountBits Mode.numeric 1 +
        10 * (([49, 50, 51, 52] : List Nat).length / 3) +
        (if ([49, 50, 51, 52] : List Nat).length % 3 = 2 then 7
         else if ([49, 50, 51, 52] : List Nat).length % 3 = 1 then 4 else 0) :=
  c5_numeric_packing [49, 50, 51, 52] RecoveryLevel.Low 1 (by decide) (by decide)

/-- Claim C6: GF(256) multiplication: multiply(a, b) is 0 when either
operand is 0 and otherwise antilog[(log[a] + log[b]) mod 255], over the
size-256 log/antilog tables generated from x⁸+x⁴+x³+x²+1 with generator
element 2; the computation is total (always a byte) with mutually inverse
tables, hence pure and deterministic with no failure mode. -/
theorem c6_gf_multiply :
    (∀ a b : Nat, multiply a b =
      if a = 0 ∨ b = 0 then 0
      else antilogTable.getD ((logOf a + logOf b) % 255) 0) ∧
    (∀ a b : Nat, multiply a b < 256) ∧
    antilogTable.length = 256 ∧
    (∀ i, i < 255 → logOf (antilogTable.getD i 0) = i) ∧
    (∀ a, a < 256 → 0 < a → antilogTable.getD (logOf a) 0 = a) := by
  refine ⟨fun a b => rfl, ?_, by decide, by decide, by decide⟩
  intro a b
  unfold multiply
  split
  · omega
  · have hlen : antilogTable.length = 256 := by decide
    have hidx : (logOf a + logOf b) % 255 < antilogTable.length := by
      rw [hlen]
      omega
    rw [List.getD_eq_getElem _ _ hidx]
    have hall : ∀ x ∈ antilogTable, x < 256 := by decide
    exact hall _ (List.getElem_mem hidx)

/-- Witness for C6 at concrete inputs: 2·3 = 6 in GF(256), the product is
a byte, and the log/antilog tables invert each other at 5 and at 7. -/
theorem c6_gf_multiply_witness :
    multiply 2 3 = (if (2 : Nat) = 0 ∨ (3 : Nat) = 0 then 0
      else antilogTable.getD ((logOf 2 + logOf 3) % 255) 0) ∧
    multiply 2 3 < 256 ∧
    logOf (antilogTable.getD 5 0) = 5 ∧
    antilogTable.getD (logOf 7) 0 = 7 :=
  ⟨c6_gf_multiply.1 2 3, c6_gf_multiply.2.1 2 3,
   c6_gf_multiply.2.2.2.1 5 (by decide),
   c6_gf_multiply.2.2.2.2 7 (by decide) (by decide)⟩

/-- Claim C8: encoding is deterministic: two runs of encode on the same
payload and recovery level that produce symbols produce the same mask id
and bit-for-bit identical module matrices (the embedding is a pure
function of the payload and level alone; the tables are fixed
definitions, so no initialization order can influence the result). -/
theorem c8_deterministic :
    ∀ (content : List Nat) (level : RecoveryLevel) (s1 s2 : Symbol),
      encode content level = .ok s1 → encode content level = .ok s2 →
      s1.maskId = s2.maskId ∧ s1.modules = s2.modules ∧ s1 = s2 := by
  intro c l s1 s2 h1 h2
  rw [h1] at h2
  injection h2 with h
  exact ⟨by rw [h], by rw [h], h⟩

/-- Witness for C8 at a concrete input: the two (identical) runs of
encode on a one-byte payload at level Low agree on mask id and matrix. -/
theorem c8_deterministic_witness :
    (buildSymbol [65] RecoveryLevel.Low 1).maskId =
      (buildSymbol [65] RecoveryLevel.Low 1).maskId ∧
    (buildSymbol [65] RecoveryLevel.Low 1).modules =
      (buildSymbol [65] RecoveryLevel.Low 1).modules ∧
    buildSymbol [65] RecoveryLevel.Low 1 = buildSymbol [65] RecoveryLevel.Low 1 :=
  c8_deterministic [65] RecoveryLevel.Low _ _
    (encode_some [65] RecoveryLevel.Low 1 (by decide))
    (encode_some [65] RecoveryLevel.Low 1 (by decide))

end GoQrcode
